import Mathlib

/-!
Verification of the git-archive input schemes (github / gitlab fetchers)
of `src/libfetchers/github.cc`.

The C++ code is shallowly embedded: the attribute bag of an `Input` becomes
an association list from attribute names to typed scalar values, the
orchestrating `fetch` member function becomes a pure function parametrised
over the external collaborators (ref resolution, tarball download, store
path realisation), and every network or cache interaction is recorded in an
explicit call log so that claims about which calls happen can be stated.
-/

set_option autoImplicit false

namespace GitArchive

/-- Typed scalar attribute values, mirroring the `Attr` variant
(string / integer / boolean) of the fetcher attribute bags. -/
inductive AttrValue where
  | str (s : String)
  | int (n : Int)
  | bool (b : Bool)
deriving DecidableEq, Repr

/-- An attribute bag: a finite mapping from attribute names to values,
embedded as an association list (the C++ `Attrs` is a `std::map`). -/
abbrev Attrs := List (String × AttrValue)

/-- Lookup of an attribute by name (first matching entry). -/
def attrGet : Attrs → String → Option AttrValue
  | [], _ => none
  | (k, v) :: rest, name => if k = name then some v else attrGet rest name

/-- Removal of an attribute by name (`std::map::erase`). -/
def attrErase : Attrs → String → Attrs
  | [], _ => []
  | (k, v) :: rest, name =>
    if k = name then attrErase rest name else (k, v) :: attrErase rest name

/-- The map operation `insert_or_assign` of `std::map`: the entry for `n` is replaced by `v`,
or appended when absent.  On the association-list embedding this is
implemented as erase-then-append, which realises exactly the same mapping. -/
def attrInsert (a : Attrs) (n : String) (v : AttrValue) : Attrs :=
  attrErase a n ++ [(n, v)]

@[simp] theorem attrGet_nil (name : String) : attrGet [] name = none := rfl

@[simp] theorem attrGet_cons (k : String) (v : AttrValue) (rest : Attrs) (name : String) :
    attrGet ((k, v) :: rest) name = if k = name then some v else attrGet rest name := rfl

theorem attrGet_append (a b : Attrs) (name : String) :
    attrGet (a ++ b) name =
      match attrGet a name with
      | some v => some v
      | none => attrGet b name := by
  induction a with
  | nil => simp [attrGet]
  | cons p rest ih =>
    obtain ⟨k, v⟩ := p
    by_cases h : k = name <;> simp [attrGet, h, ih]

@[simp] theorem attrGet_erase (a : Attrs) (name m : String) :
    attrGet (attrErase a name) m = if m = name then none else attrGet a m := by
  induction a with
  | nil => by_cases h : m = name <;> simp [attrErase, h]
  | cons p rest ih =>
    obtain ⟨k, v⟩ := p
    by_cases hk : k = name
    · subst hk
      by_cases hm : m = k
      · subst hm; simp [attrErase, ih]
      · simp [attrErase, attrGet, ih, hm, Ne.symm hm]
    · by_cases hkm : k = m
      · subst hkm
        simp [attrErase, hk, attrGet]
      · simp [attrErase, hk, attrGet, hkm, ih]

@[simp] theorem attrGet_insert (a : Attrs) (n : String) (v : AttrValue) (m : String) :
    attrGet (attrInsert a n v) m = if m = n then some v else attrGet a m := by
  unfold attrInsert
  rw [attrGet_append]
  by_cases h : m = n
  · simp [h, attrGet]
  · have h' : ¬ n = m := fun hh => h hh.symm
    cases hg : attrGet a m <;> simp [hg, attrGet, h, h']

/-- String-typed attribute lookup (`maybeGetStrAttr`): yields the string when
the attribute is present with a string value. -/
def maybeGetStrAttr (attrs : Attrs) (name : String) : Option String :=
  match attrGet attrs name with
  | some (.str s) => some s
  | _ => none

/-- Integer-typed attribute lookup (`maybeGetIntAttr`). -/
def maybeGetIntAttr (attrs : Attrs) (name : String) : Option Int :=
  match attrGet attrs name with
  | some (.int n) => some n
  | _ => none

/-- The error taxonomy surfaced by the scheme: `badURL` corresponds to the
`BadURL` exception, `err` to the generic `Error` exception. -/
inductive Err where
  | badURL (msg : String)
  | err (msg : String)
deriving DecidableEq, Repr

/-- Embeds `getStrAttr`: like `maybeGetStrAttr` but a missing attribute is an error. -/
def getStrAttr (attrs : Attrs) (name : String) : Except Err String :=
  match maybeGetStrAttr attrs name with
  | some s => .ok s
  | none => .error (.err s!"attribute {name} missing")

/-- Embeds `getIntAttr`: like `maybeGetIntAttr` but a missing attribute is an error. -/
def getIntAttr (attrs : Attrs) (name : String) : Except Err Int :=
  match maybeGetIntAttr attrs name with
  | some n => .ok n
  | none => .error (.err s!"attribute {name} missing")

/-- A lowercase hexadecimal digit. -/
def isLowerHexDigit (c : Char) : Bool :=
  c.isDigit || ('a' ≤ c && c ≤ 'f')

/-- Modelled from the spec: the revision pattern (`revRegex`, defined outside
this translation unit) — a git commit hash written as 40 lowercase
hexadecimal characters. -/
def isRevString (s : String) : Bool :=
  (s.length == 40) && s.data.all isLowerHexDigit

/-- Modelled from the spec: the branch/tag-name pattern (`refRegex`, defined
outside this translation unit) — a nonempty name starting with an
alphanumeric character and continuing with alphanumeric characters,
underscore, dot or dash. -/
def refRegexMatch (s : String) : Bool :=
  match s.data with
  | [] => false
  | c :: rest =>
    c.isAlphanum && rest.all (fun d => d.isAlphanum || d = '_' || d = '.' || d = '-')

/-- The host pattern `urlRegex` = `[a-zA-Z0-9.]*` of `github.cc` (a full
match: every character is alphanumeric or a dot). -/
def urlRegexMatch (s : String) : Bool :=
  s.data.all (fun c => c.isAlphanum || c = '.')

/-- Modelled from the spec: a SHA-1 revision (`Hash` of type `htSHA1`),
carrying its canonical lowercase 40-hexadecimal git rendering (`gitRev`).
The spec requires revisions to be validated on every construction path, so
validity is part of the type. -/
structure Hash where
  gitRev : String
  isRev : isRevString gitRev = true

instance : DecidableEq Hash := fun a b =>
  if h : a.gitRev = b.gitRev then
    .isTrue (by cases a; cases b; cases h; rfl)
  else
    .isFalse (fun he => by cases he; exact h rfl)

/-- Modelled from the spec: `Hash::parseAny(s, htSHA1)` — parses a revision
from text, failing unless the text is the 40-hex form. -/
def Hash.parseAny (s : String) : Except Err Hash :=
  if h : isRevString s = true then .ok ⟨s, h⟩
  else .error (.badURL s!"hash {s} is not a SHA1 revision")

theorem Hash.parseAny_gitRev (h : Hash) : Hash.parseAny h.gitRev = .ok h := by
  cases h with
  | mk s p => simp [Hash.parseAny, p]

/-- An `Input`: the attribute bag. -/
structure Input where
  attrs : Attrs
deriving DecidableEq, Repr

/-- Embeds `Input::getRef`: the `ref` attribute, when present. -/
def Input.getRef (i : Input) : Option String :=
  maybeGetStrAttr i.attrs "ref"

/-- Modelled from the spec: `Input::getRev` reads the `rev` attribute as a
SHA-1 revision; only a valid 40-hex revision text yields a revision. -/
def Input.getRev (i : Input) : Option Hash :=
  match maybeGetStrAttr i.attrs "rev" with
  | some s =>
    match Hash.parseAny s with
    | .ok h => some h
    | .error _ => none
  | none => none

/-- Modelled from the spec: `tokenizeString(path, "/")` of the utility
library — splits the character list at separators, empty tokens discarded.
`acc` holds the characters of the current token in reverse. -/
def splitSlashAux : List Char → List Char → List (List Char)
  | [], acc => [acc.reverse]
  | c :: cs, acc =>
    if c = '/' then acc.reverse :: splitSlashAux cs []
    else splitSlashAux cs (c :: acc)

/-- Modelled from the spec: `tokenizeString(s, "/")` — the nonempty
slash-separated tokens of `s`. -/
def tokenizeString (s : String) : List String :=
  ((splitSlashAux s.data []).filter (fun l => !l.isEmpty)).map (fun l => String.mk l)

/-- Modelled from the spec: the pieces of a `ParsedURL` that this scheme
consumes — the scheme, the raw url text (used only in error messages), the
path, and the query as a sequence of name/value pairs in order of
appearance. -/
structure ParsedURL where
  scheme : String
  url : String
  path : String
  query : List (String × String)
deriving DecidableEq, Repr

/-- The running state of query-parameter processing in `inputFromURL`: the
optional rev, ref and host collected so far (from the path segment and the
query pairs already seen). -/
structure QState where
  rev : Option Hash
  ref : Option String
  host : Option String
deriving DecidableEq

/-- The query loop of `inputFromURL` (github.cc lines 55–74), processing the
query pairs in order.  `urlText` is the raw URL text used in messages. -/
def processQuery (urlText : String) : List (String × String) → QState → Except Err QState
  | [], st => .ok st
  | (name, value) :: rest, st =>
    if name = "rev" then
      match st.rev with
      | some _ => .error (.badURL s!"URL {urlText} contains multiple commit hashes")
      | none =>
        match Hash.parseAny value with
        | .error e => .error e
        | .ok h => processQuery urlText rest { st with rev := some h }
    else if name = "ref" then
      if refRegexMatch value = false then
        .error (.badURL s!"URL {urlText} contains an invalid branch/tag name")
      else
        match st.ref with
        | some _ => .error (.badURL s!"URL {urlText} contains multiple branch/tag names")
        | none => processQuery urlText rest { st with ref := some value }
    else if name = "host" then
      if urlRegexMatch value = false then
        .error (.badURL s!"URL {urlText} contains an invalid instance host")
      else processQuery urlText rest { st with host := some value }
    else processQuery urlText rest st

/-- Classification of the third path segment (github.cc lines 45–51): a
revision when it matches `revRegex`, else a ref when it matches `refRegex`,
else an error. -/
def classifySegment (urlText seg : String) : Except Err (Option Hash × Option String) :=
  if h : isRevString seg = true then .ok (some ⟨seg, h⟩, none)
  else if refRegexMatch seg then .ok (none, some seg)
  else .error (.badURL s!"in URL {urlText}, {seg} is not a commit hash or branch/tag name")

/-- The attribute bag assembled at the end of `inputFromURL` (github.cc
lines 79–86): `type`, `owner`, `repo`, then the optional `rev`, `ref`,
`host`. -/
def mkAttrs (t ow rp : String) (st : QState) : Attrs :=
  let a : Attrs := []
  let a := attrInsert a "type" (.str t)
  let a := attrInsert a "owner" (.str ow)
  let a := attrInsert a "repo" (.str rp)
  let a := match st.rev with
    | some h => attrInsert a "rev" (.str h.gitRev)
    | none => a
  let a := match st.ref with
    | some r => attrInsert a "ref" (.str r)
    | none => a
  match st.host with
  | some hu => attrInsert a "host" (.str hu)
  | none => a

/-- The tail of `inputFromURL` after path classification: the query loop,
the ref/rev conflict check (github.cc line 76), and assembly of the
attribute bag.  `urlText` and `query` are the corresponding fields of the
parsed URL. -/
def afterPath (t urlText : String) (query : List (String × String))
    (owner repo : String) (st0 : QState) : Except Err Input :=
  match processQuery urlText query st0 with
  | .error e => .error e
  | .ok st =>
    if st.ref.isSome && st.rev.isSome then
      .error (.badURL s!"URL {urlText} contains both a commit hash and a branch/tag name")
    else .ok ⟨mkAttrs t owner repo st⟩

/-- Embeds `GitArchiveInputScheme::inputFromURL` (github.cc lines 34–88).  Returns
`.ok none` when the scheme does not match (the `{}` return in C++); thrown
`BadURL` exceptions become `.error`. -/
def inputFromURL (t : String) (url : ParsedURL) : Except Err (Option Input) :=
  if url.scheme ≠ t then .ok none
  else
    match tokenizeString url.path with
    | [owner, repo] => (afterPath t url.url url.query owner repo ⟨none, none, none⟩).map some
    | [owner, repo, seg] =>
      (classifySegment url.url seg).bind
        (fun p => (afterPath t url.url url.query owner repo ⟨p.1, p.2, none⟩).map some)
    | _ => .error (.badURL s!"URL {url.url} is invalid")

/-- The attribute names accepted by `inputFromAttrs` (github.cc line 95). -/
def allowedAttrName (n : String) : Bool :=
  n == "type" || n == "owner" || n == "repo" || n == "ref" || n == "rev" ||
  n == "narHash" || n == "lastModified" || n == "host"

/-- Embeds `GitArchiveInputScheme::inputFromAttrs` (github.cc lines 90–104): scheme
match on `type`, attribute-name whitelist, `owner` and `repo` required, and
the bag is taken verbatim. -/
def inputFromAttrs (t : String) (attrs : Attrs) : Except Err (Option Input) :=
  if maybeGetStrAttr attrs "type" ≠ some t then .ok none
  else
    match attrs.find? (fun p => !allowedAttrName p.1) with
    | some (name, _) => .error (.err s!"unsupported input attribute {name}")
    | none =>
      match getStrAttr attrs "owner" with
      | .error e => .error e
      | .ok _ =>
        match getStrAttr attrs "repo" with
        | .error e => .error e
        | .ok _ => .ok (some ⟨attrs⟩)

/-- Embeds `GitArchiveInputScheme::toURL` (github.cc lines 106–120).  The C++
`assert(!(ref && rev))` is modelled as an error result; the rev is rendered
with `to_string(Base16, false)`, i.e. its lowercase hex form. -/
def toURL (t : String) (input : Input) : Except Err ParsedURL :=
  match getStrAttr input.attrs "owner" with
  | .error e => .error e
  | .ok owner =>
    match getStrAttr input.attrs "repo" with
    | .error e => .error e
    | .ok repo =>
      let ref := input.getRef
      let rev := input.getRev
      if ref.isSome && rev.isSome then
        .error (.err "assertion failed: ref and rev both present")
      else
        let path := owner ++ "/" ++ repo
        let path := match ref with
          | some r => path ++ "/" ++ r
          | none => path
        let path := match rev with
          | some h => path ++ "/" ++ h.gitRev
          | none => path
        .ok ⟨t, "", path, []⟩

/-- Embeds `GitArchiveInputScheme::hasAllInfo` (github.cc lines 122–125). -/
def hasAllInfo (input : Input) : Bool :=
  input.getRev.isSome && (maybeGetIntAttr input.attrs "lastModified").isSome

/-- Embeds `GitArchiveInputScheme::applyOverrides` (github.cc lines 127–145). -/
def applyOverrides (input : Input) (ref : Option String) (rev : Option Hash) :
    Except Err Input :=
  if rev.isSome && ref.isSome then
    .error (.badURL "cannot apply both a commit hash and a branch/tag name to input")
  else
    let a := input.attrs
    let a := match rev with
      | some h => attrErase (attrInsert a "rev" (.str h.gitRev)) "ref"
      | none => a
    let a := match ref with
      | some r => attrErase (attrInsert a "ref" (.str r)) "rev"
      | none => a
    .ok ⟨a⟩

/-- The URL built by `GitHubInputScheme::getRevFromRef` (github.cc lines
209–213): the host comes from the `host` attribute, defaulting to
`github.com`. -/
def githubGetRevFromRefUrl (input : Input) : Except Err String :=
  let host := (maybeGetStrAttr input.attrs "host").getD "github.com"
  match getStrAttr input.attrs "owner" with
  | .error e => .error e
  | .ok owner =>
    match getStrAttr input.attrs "repo" with
    | .error e => .error e
    | .ok repo =>
      match input.getRef with
      | some r => .ok s!"https://api.{host}/repos/{owner}/{repo}/commits/{r}"
      | none => .error (.err "input has no ref")

/-- The URL built by `GitLabInputScheme::getRevFromRef` (github.cc lines
265–269).  Note: the code consults the attribute named `url`, not `host`,
before defaulting to `gitlab.com`. -/
def gitlabGetRevFromRefUrl (input : Input) : Except Err String :=
  let host_url := (maybeGetStrAttr input.attrs "url").getD "gitlab.com"
  match getStrAttr input.attrs "owner" with
  | .error e => .error e
  | .ok owner =>
    match getStrAttr input.attrs "repo" with
    | .error e => .error e
    | .ok repo =>
      match input.getRef with
      | some r =>
        .ok s!"https://{host_url}/api/v4/projects/{owner}%2F{repo}/repository/commits?ref_name={r}"
      | none => .error (.err "input has no ref")

/-- Embeds `DownloadUrl` (github.cc lines 12–22): a url plus an optional
authorization header. -/
structure DownloadUrl where
  url : String
  access_token_header : Option (String × String)
deriving DecidableEq, Repr

/-- A store tree, as in `Tree(store->toRealPath(p), p)`: the real
(filesystem) path and the store path. -/
structure Tree where
  actualPath : String
  storePath : String
deriving DecidableEq, Repr

/-- The external cache (spec §6): an association of immutable key attribute
bags to `(metadata attrs, store path)` entries. -/
abbrev Cache := List (Attrs × (Attrs × String))

/-- Embeds `Cache::lookup` of the external cache. -/
def cacheLookup (c : Cache) (key : Attrs) : Option (Attrs × String) :=
  match c with
  | [] => none
  | (k, e) :: rest => if k = key then some e else cacheLookup rest key

/-- Embeds `Cache::add` with `mayOverwrite = true`: the new entry is prepended, so
it shadows any earlier entry for the same key. -/
def cacheAdd (c : Cache) (key info : Attrs) (storePath : String) : Cache :=
  (key, (info, storePath)) :: c

/-- Observable calls made by `fetch` against the network and cache
collaborators. -/
inductive NetCall where
  | resolveRef (input : Input)
  | downloadTarball (url : String)
  | cacheLookupCall (key : Attrs)
  | cacheAddCall (key : Attrs)
deriving DecidableEq

/-- The external collaborators of `fetch` (spec §6): the behavior of the
provider ref-resolution call (`getRevFromRef`), of the tarball download
(`downloadTarball`), of store path realisation (`toRealPath`), and the
provider download-URL construction (`getDownloadUrl`). -/
structure FetchEnv where
  resolveRev : Input → Except Err Hash
  download : String → List (String × String) → Except Err (Tree × Int)
  toRealPath : String → String
  getDownloadUrl : Input → DownloadUrl

/-- The immutable cache key of `fetch` (github.cc lines 163–166):
`{type: "git-tarball", rev}` — a function of the resolved revision only. -/
def immutableAttrs (rev : Hash) : Attrs :=
  [("type", .str "git-tarball"), ("rev", .str rev.gitRev)]

/-- Step 1 of `fetch` (github.cc line 155): default the ref to `HEAD` when
absent. -/
def normalizeRef (input : Input) : Input :=
  if (maybeGetStrAttr input.attrs "ref").isNone then
    ⟨attrInsert input.attrs "ref" (.str "HEAD")⟩
  else input

/-- Steps 2 of `fetch` once the revision is known (github.cc lines
160–161): erase `ref` and pin `rev` to the resolved revision. -/
def pinnedInput (input1 : Input) (rev : Hash) : Input :=
  ⟨attrInsert (attrErase input1.attrs "ref") "rev" (.str rev.gitRev)⟩

/-- The header list passed to the download (github.cc lines 178–181). -/
def headersOf (du : DownloadUrl) : List (String × String) :=
  match du.access_token_header with
  | some h => [h]
  | none => []

/-- The metadata attribute bag written to the cache (github.cc lines
190–193). -/
def cacheInfoAttrs (rev : Hash) (lastModified : Int) : Attrs :=
  [("rev", .str rev.gitRev), ("lastModified", .int lastModified)]

/-- The part of `fetch` after the revision is known (github.cc lines
160–197): strip `ref`, pin `rev`, consult the cache, and on a miss download
the tarball and populate the cache.  Returns the result, the new cache
state, and the calls made (appended to `log0`). -/
def fetchResolved (env : FetchEnv) (cache : Cache) (input1 : Input) (rev : Hash)
    (log0 : List NetCall) : Except Err (Tree × Input) × Cache × List NetCall :=
  let input2 := pinnedInput input1 rev
  let key := immutableAttrs rev
  let log1 := log0 ++ [.cacheLookupCall key]
  match cacheLookup cache key with
  | some (info, storePath) =>
    match getIntAttr info "lastModified" with
    | .error e => (.error e, cache, log1)
    | .ok lm =>
      (.ok (⟨env.toRealPath storePath, storePath⟩,
            ⟨attrInsert input2.attrs "lastModified" (.int lm)⟩), cache, log1)
  | none =>
    let du := env.getDownloadUrl input2
    match env.download du.url (headersOf du) with
    | .error e => (.error e, cache, log1 ++ [.downloadTarball du.url])
    | .ok (tree, lastModified) =>
      let input3 : Input := ⟨attrInsert input2.attrs "lastModified" (.int lastModified)⟩
      let cache2 := cacheAdd cache key (cacheInfoAttrs rev lastModified) tree.storePath
      (.ok (tree, input3), cache2, log1 ++ [.downloadTarball du.url, .cacheAddCall key])

/-- Embeds `GitArchiveInputScheme::fetch` (github.cc lines 151–198). -/
def fetch (env : FetchEnv) (cache : Cache) (input0 : Input) :
    Except Err (Tree × Input) × Cache × List NetCall :=
  let input1 := normalizeRef input0
  match input1.getRev with
  | some rev => fetchResolved env cache input1 rev []
  | none =>
    match env.resolveRev input1 with
    | .error e => (.error e, cache, [.resolveRef input1])
    | .ok rev => fetchResolved env cache input1 rev [.resolveRef input1]

/-- The revision `fetch` resolves for an input: the revision already
present, or the one the provider resolution call returns for the
ref-defaulted input. -/
def resolvedRev (env : FetchEnv) (input0 : Input) : Except Err Hash :=
  let input1 := normalizeRef input0
  match input1.getRev with
  | some rev => .ok rev
  | none => env.resolveRev input1

theorem getRev_pinnedInput (input1 : Input) (rev : Hash) :
    (pinnedInput input1 rev).getRev = some rev := by
  simp [pinnedInput, Input.getRev, maybeGetStrAttr, Hash.parseAny_gitRev]

theorem ref_pinnedInput (input1 : Input) (rev : Hash) :
    maybeGetStrAttr (pinnedInput input1 rev).attrs "ref" = none := by
  simp [pinnedInput, maybeGetStrAttr]

theorem getRev_normalizeRef (i : Input) : (normalizeRef i).getRev = i.getRev := by
  unfold normalizeRef
  split
  · simp [Input.getRev, maybeGetStrAttr]
  · rfl

/-- Case characterization of `fetchResolved`: cache hit with broken
metadata, cache hit, download failure, or download success. -/
theorem fetchResolved_cases (env : FetchEnv) (cache : Cache) (input1 : Input) (rev : Hash)
    (log0 : List NetCall) :
    (∃ info storePath e,
      cacheLookup cache (immutableAttrs rev) = some (info, storePath) ∧
      getIntAttr info "lastModified" = .error e ∧
      fetchResolved env cache input1 rev log0 =
        (.error e, cache, log0 ++ [.cacheLookupCall (immutableAttrs rev)])) ∨
    (∃ info storePath lm,
      cacheLookup cache (immutableAttrs rev) = some (info, storePath) ∧
      getIntAttr info "lastModified" = .ok lm ∧
      fetchResolved env cache input1 rev log0 =
        (.ok (⟨env.toRealPath storePath, storePath⟩,
              ⟨attrInsert (pinnedInput input1 rev).attrs "lastModified" (.int lm)⟩),
         cache, log0 ++ [.cacheLookupCall (immutableAttrs rev)])) ∨
    (∃ e,
      cacheLookup cache (immutableAttrs rev) = none ∧
      env.download (env.getDownloadUrl (pinnedInput input1 rev)).url
          (headersOf (env.getDownloadUrl (pinnedInput input1 rev))) = .error e ∧
      fetchResolved env cache input1 rev log0 =
        (.error e, cache,
         log0 ++ [.cacheLookupCall (immutableAttrs rev),
                  .downloadTarball (env.getDownloadUrl (pinnedInput input1 rev)).url])) ∨
    (∃ tree lm,
      cacheLookup cache (immutableAttrs rev) = none ∧
      env.download (env.getDownloadUrl (pinnedInput input1 rev)).url
          (headersOf (env.getDownloadUrl (pinnedInput input1 rev))) = .ok (tree, lm) ∧
      fetchResolved env cache input1 rev log0 =
        (.ok (tree, ⟨attrInsert (pinnedInput input1 rev).attrs "lastModified" (.int lm)⟩),
         cacheAdd cache (immutableAttrs rev) (cacheInfoAttrs rev lm) tree.storePath,
         log0 ++ [.cacheLookupCall (immutableAttrs rev),
                  .downloadTarball (env.getDownloadUrl (pinnedInput input1 rev)).url,
                  .cacheAddCall (immutableAttrs rev)])) := by
  cases hcl : cacheLookup cache (immutableAttrs rev) with
  | some e0 =>
    obtain ⟨info, storePath⟩ := e0
    cases hlm : getIntAttr info "lastModified" with
    | error e =>
      exact Or.inl ⟨info, storePath, e, rfl, hlm, by simp [fetchResolved, hcl, hlm]⟩
    | ok lm =>
      exact Or.inr (Or.inl ⟨info, storePath, lm, rfl, hlm, by simp [fetchResolved, hcl, hlm]⟩)
  | none =>
    cases hdl : env.download (env.getDownloadUrl (pinnedInput input1 rev)).url
        (headersOf (env.getDownloadUrl (pinnedInput input1 rev))) with
    | error e =>
      exact Or.inr (Or.inr (Or.inl ⟨e, rfl, rfl, by simp [fetchResolved, hcl, hdl]⟩))
    | ok p =>
      obtain ⟨tree, lm⟩ := p
      exact Or.inr (Or.inr (Or.inr ⟨tree, lm, rfl, rfl, by simp [fetchResolved, hcl, hdl]⟩))

/-- Case characterization of `fetch`: rev already present, resolution
failure, or resolution success. -/
theorem fetch_cases (env : FetchEnv) (cache : Cache) (input0 : Input) :
    (∃ rev, (normalizeRef input0).getRev = some rev ∧
      resolvedRev env input0 = .ok rev ∧
      fetch env cache input0 = fetchResolved env cache (normalizeRef input0) rev []) ∨
    (∃ e, (normalizeRef input0).getRev = none ∧
      env.resolveRev (normalizeRef input0) = .error e ∧
      resolvedRev env input0 = .error e ∧
      fetch env cache input0 = (.error e, cache, [.resolveRef (normalizeRef input0)])) ∨
    (∃ rev, (normalizeRef input0).getRev = none ∧
      env.resolveRev (normalizeRef input0) = .ok rev ∧
      resolvedRev env input0 = .ok rev ∧
      fetch env cache input0 =
        fetchResolved env cache (normalizeRef input0) rev [.resolveRef (normalizeRef input0)]) := by
  cases hgr : (normalizeRef input0).getRev with
  | some rev =>
    exact Or.inl ⟨rev, rfl, by simp [resolvedRev, hgr], by simp [fetch, hgr]⟩
  | none =>
    cases hrr : env.resolveRev (normalizeRef input0) with
    | error e =>
      exact Or.inr (Or.inl ⟨e, rfl, rfl, by simp [resolvedRev, hgr, hrr],
        by simp [fetch, hgr, hrr]⟩)
    | ok rev =>
      exact Or.inr (Or.inr ⟨rev, rfl, rfl, by simp [resolvedRev, hgr, hrr],
        by simp [fetch, hgr, hrr]⟩)

theorem cacheLookup_cacheAdd_self (c : Cache) (k i : Attrs) (p : String) :
    cacheLookup (cacheAdd c k i p) k = some (i, p) := by
  simp [cacheAdd, cacheLookup]

theorem getIntAttr_cacheInfoAttrs (rev : Hash) (lm : Int) :
    getIntAttr (cacheInfoAttrs rev lm) "lastModified" = .ok lm := by
  simp [cacheInfoAttrs, getIntAttr, maybeGetIntAttr, attrGet]

theorem getRev_outputInput (i : Input) (rev : Hash) (lm : Int) :
    (Input.mk (attrInsert (pinnedInput i rev).attrs "lastModified" (.int lm))).getRev
      = some rev := by
  simp [Input.getRev, maybeGetStrAttr, pinnedInput, Hash.parseAny_gitRev]

/-- Every cache key appearing in the call log of a `fetch` is the immutable
key of the revision that `fetch` resolved. -/
theorem fetch_log_key (env : FetchEnv) (cache : Cache) (input0 : Input) (k : Attrs)
    (hk : NetCall.cacheLookupCall k ∈ (fetch env cache input0).2.2 ∨
          NetCall.cacheAddCall k ∈ (fetch env cache input0).2.2) :
    ∃ rev, resolvedRev env input0 = .ok rev ∧ k = immutableAttrs rev := by
  rcases fetch_cases env cache input0 with
    ⟨rev, hgr, hrv, heq⟩ | ⟨e, hgr, hre, hrv, heq⟩ | ⟨rev, hgr, hre, hrv, heq⟩
  · rcases fetchResolved_cases env cache (normalizeRef input0) rev [] with
      ⟨info, sp, e, hcl, hlm, hfr⟩ | ⟨info, sp, lm, hcl, hlm, hfr⟩ |
      ⟨e, hcl, hdl, hfr⟩ | ⟨tree, lm, hcl, hdl, hfr⟩ <;>
    · rw [heq, hfr] at hk
      simp at hk
      exact ⟨rev, hrv, hk⟩
  · rw [heq] at hk
    simp at hk
  · rcases fetchResolved_cases env cache (normalizeRef input0) rev
        [.resolveRef (normalizeRef input0)] with
      ⟨info, sp, e, hcl, hlm, hfr⟩ | ⟨info, sp, lm, hcl, hlm, hfr⟩ |
      ⟨e, hcl, hdl, hfr⟩ | ⟨tree, lm, hcl, hdl, hfr⟩ <;>
    · rw [heq, hfr] at hk
      simp at hk
      exact ⟨rev, hrv, hk⟩

/-- C2: for every fetch invocation, every cache key used for lookup or
insertion is the fixed-tag/rev key of the resolved revision, and contains
no `ref`, `host`, `owner` or `repo` attribute; two inputs differing only in
`host` that resolve to the same revision use the same key. -/
theorem fetch_cache_key_pure :
    (∀ env cache input0 k,
       (NetCall.cacheLookupCall k ∈ (fetch env cache input0).2.2 ∨
        NetCall.cacheAddCall k ∈ (fetch env cache input0).2.2) →
       ∃ rev, resolvedRev env input0 = .ok rev ∧ k = immutableAttrs rev ∧
         attrGet k "ref" = none ∧ attrGet k "host" = none ∧
         attrGet k "owner" = none ∧ attrGet k "repo" = none) ∧
    (∀ env1 env2 cache1 cache2 i1 i2 rev k1 k2,
       attrErase i1.attrs "host" = attrErase i2.attrs "host" →
       resolvedRev env1 i1 = .ok rev → resolvedRev env2 i2 = .ok rev →
       (NetCall.cacheLookupCall k1 ∈ (fetch env1 cache1 i1).2.2 ∨
        NetCall.cacheAddCall k1 ∈ (fetch env1 cache1 i1).2.2) →
       (NetCall.cacheLookupCall k2 ∈ (fetch env2 cache2 i2).2.2 ∨
        NetCall.cacheAddCall k2 ∈ (fetch env2 cache2 i2).2.2) →
       k1 = k2) := by
  constructor
  · intro env cache input0 k hk
    obtain ⟨rev, hrv, hkey⟩ := fetch_log_key env cache input0 k hk
    refine ⟨rev, hrv, hkey, ?_, ?_, ?_, ?_⟩ <;> simp [hkey, immutableAttrs, attrGet]
  · intro env1 env2 cache1 cache2 i1 i2 rev k1 k2 _ hrv1 hrv2 hk1 hk2
    obtain ⟨rev1, hrv1x, hkey1⟩ := fetch_log_key env1 cache1 i1 k1 hk1
    obtain ⟨rev2, hrv2x, hkey2⟩ := fetch_log_key env2 cache2 i2 k2 hk2
    rw [hrv1] at hrv1x
    rw [hrv2] at hrv2x
    cases hrv1x
    cases hrv2x
    rw [hkey1, hkey2]

theorem fetchResolved_no_partial_write (env : FetchEnv) (cache : Cache) (input1 : Input)
    (rev : Hash) (log0 : List NetCall) :
    ((∃ e, (fetchResolved env cache input1 rev log0).1 = .error e) →
      (fetchResolved env cache input1 rev log0).2.1 = cache) ∧
    ((fetchResolved env cache input1 rev log0).2.1 ≠ cache →
      ∃ tree lm input3,
        (fetchResolved env cache input1 rev log0).1 = .ok (tree, input3) ∧
        env.download (env.getDownloadUrl (pinnedInput input1 rev)).url
            (headersOf (env.getDownloadUrl (pinnedInput input1 rev))) = .ok (tree, lm) ∧
        (fetchResolved env cache input1 rev log0).2.1 =
          cacheAdd cache (immutableAttrs rev) (cacheInfoAttrs rev lm) tree.storePath) := by
  rcases fetchResolved_cases env cache input1 rev log0 with
    ⟨info, sp, e, hcl, hlm, hfr⟩ | ⟨info, sp, lm, hcl, hlm, hfr⟩ |
    ⟨e, hcl, hdl, hfr⟩ | ⟨tree, lm, hcl, hdl, hfr⟩
  · rw [hfr]; exact ⟨fun _ => rfl, fun hne => absurd rfl hne⟩
  · rw [hfr]; exact ⟨fun _ => rfl, fun hne => absurd rfl hne⟩
  · rw [hfr]; exact ⟨fun _ => rfl, fun hne => absurd rfl hne⟩
  · rw [hfr]
    refine ⟨fun he => ?_, fun _ => ⟨tree, lm, _, rfl, hdl, rfl⟩⟩
    obtain ⟨e, he⟩ := he
    simp at he

/-- C3: a failing fetch writes no cache entry; the cache is only mutated by
a single `add` of the downloaded tree, performed after the
download-and-unpack succeeded. -/
theorem fetch_no_partial_cache_write (env : FetchEnv) (cache : Cache) (input0 : Input) :
    ((∃ e, (fetch env cache input0).1 = .error e) → (fetch env cache input0).2.1 = cache) ∧
    ((fetch env cache input0).2.1 ≠ cache →
      ∃ rev tree lm input3,
        resolvedRev env input0 = .ok rev ∧
        (fetch env cache input0).1 = .ok (tree, input3) ∧
        env.download (env.getDownloadUrl (pinnedInput (normalizeRef input0) rev)).url
            (headersOf (env.getDownloadUrl (pinnedInput (normalizeRef input0) rev))) =
          .ok (tree, lm) ∧
        (fetch env cache input0).2.1 =
          cacheAdd cache (immutableAttrs rev) (cacheInfoAttrs rev lm) tree.storePath) := by
  rcases fetch_cases env cache input0 with
    ⟨rev, hgr, hrv, heq⟩ | ⟨e, hgr, hre, hrv, heq⟩ | ⟨rev, hgr, hre, hrv, heq⟩
  · rw [heq]
    obtain ⟨h1, h2⟩ := fetchResolved_no_partial_write env cache (normalizeRef input0) rev []
    refine ⟨h1, fun hne => ?_⟩
    obtain ⟨tree, lm, input3, hres, hdl, hc⟩ := h2 hne
    exact ⟨rev, tree, lm, input3, hrv, hres, hdl, hc⟩
  · rw [heq]
    exact ⟨fun _ => rfl, fun hne => absurd rfl hne⟩
  · rw [heq]
    obtain ⟨h1, h2⟩ := fetchResolved_no_partial_write env cache (normalizeRef input0) rev
      [.resolveRef (normalizeRef input0)]
    refine ⟨h1, fun hne => ?_⟩
    obtain ⟨tree, lm, input3, hres, hdl, hc⟩ := h2 hne
    exact ⟨rev, tree, lm, input3, hrv, hres, hdl, hc⟩

theorem fetchResolved_success_shape (env : FetchEnv) (cache : Cache) (input1 : Input)
    (rev : Hash) (log0 : List NetCall) (tree : Tree) (input3 : Input)
    (hres : (fetchResolved env cache input1 rev log0).1 = .ok (tree, input3)) :
    maybeGetStrAttr input3.attrs "ref" = none ∧
    maybeGetStrAttr input3.attrs "rev" = some rev.gitRev ∧
    ∃ lm, maybeGetIntAttr input3.attrs "lastModified" = some lm := by
  rcases fetchResolved_cases env cache input1 rev log0 with
    ⟨info, sp, e, hcl, hlm, hfr⟩ | ⟨info, sp, lm, hcl, hlm, hfr⟩ |
    ⟨e, hcl, hdl, hfr⟩ | ⟨tree2, lm, hcl, hdl, hfr⟩
  · rw [hfr] at hres; simp at hres
  · rw [hfr] at hres
    simp at hres
    obtain ⟨htree, hinput⟩ := hres
    subst hinput
    refine ⟨?_, ?_, lm, ?_⟩ <;> simp [pinnedInput, maybeGetStrAttr, maybeGetIntAttr]
  · rw [hfr] at hres; simp at hres
  · rw [hfr] at hres
    simp at hres
    obtain ⟨htree, hinput⟩ := hres
    subst hinput
    refine ⟨?_, ?_, lm, ?_⟩ <;> simp [pinnedInput, maybeGetStrAttr, maybeGetIntAttr]

/-- C1: on success the returned input has no `ref`, carries the resolved
revision as a 40-hex `rev`, and has `lastModified` set; when the incoming
input had neither `ref` nor `rev`, resolution is performed with the default
ref `HEAD`. -/
theorem fetch_success_shape (env : FetchEnv) (cache : Cache) (input0 : Input) :
    (∀ tree input3, (fetch env cache input0).1 = .ok (tree, input3) →
      maybeGetStrAttr input3.attrs "ref" = none ∧
      (∃ rev, resolvedRev env input0 = .ok rev ∧
        maybeGetStrAttr input3.attrs "rev" = some rev.gitRev ∧
        isRevString rev.gitRev = true) ∧
      (∃ lm, maybeGetIntAttr input3.attrs "lastModified" = some lm)) ∧
    ((maybeGetStrAttr input0.attrs "ref" = none ∧ input0.getRev = none) →
      (normalizeRef input0).getRef = some "HEAD" ∧
      resolvedRev env input0 = env.resolveRev (normalizeRef input0)) := by
  constructor
  · intro tree input3 hres
    rcases fetch_cases env cache input0 with
      ⟨rev, hgr, hrv, heq⟩ | ⟨e, hgr, hre, hrv, heq⟩ | ⟨rev, hgr, hre, hrv, heq⟩
    · rw [heq] at hres
      obtain ⟨h1, h2, lm, h3⟩ :=
        fetchResolved_success_shape env cache (normalizeRef input0) rev [] tree input3 hres
      exact ⟨h1, ⟨rev, hrv, h2, rev.isRev⟩, lm, h3⟩
    · rw [heq] at hres; simp at hres
    · rw [heq] at hres
      obtain ⟨h1, h2, lm, h3⟩ :=
        fetchResolved_success_shape env cache (normalizeRef input0) rev
          [.resolveRef (normalizeRef input0)] tree input3 hres
      exact ⟨h1, ⟨rev, hrv, h2, rev.isRev⟩, lm, h3⟩
  · intro h
    obtain ⟨h1, h2⟩ := h
    have hn : normalizeRef input0 = ⟨attrInsert input0.attrs "ref" (.str "HEAD")⟩ := by
      simp [normalizeRef, h1]
    constructor
    · rw [hn]
      simp [Input.getRef, maybeGetStrAttr]
    · simp [resolvedRev, getRev_normalizeRef, h2]

theorem fetchResolved_on_hit (env : FetchEnv) (cache : Cache) (input1 : Input) (rev : Hash)
    (log0 : List NetCall) (info : Attrs) (sp : String)
    (hcl : cacheLookup cache (immutableAttrs rev) = some (info, sp))
    (hlog0 : ∀ u, NetCall.downloadTarball u ∉ log0) :
    (∀ u, NetCall.downloadTarball u ∉ (fetchResolved env cache input1 rev log0).2.2) ∧
    (∀ lm, getIntAttr info "lastModified" = .ok lm →
      (fetchResolved env cache input1 rev log0).1 =
        .ok (⟨env.toRealPath sp, sp⟩,
             ⟨attrInsert (pinnedInput input1 rev).attrs "lastModified" (.int lm)⟩)) := by
  rcases fetchResolved_cases env cache input1 rev log0 with
    ⟨info2, sp2, e2, hcl2, hlm2, hfr⟩ | ⟨info2, sp2, lm2, hcl2, hlm2, hfr⟩ |
    ⟨e2, hcl2, hdl2, hfr⟩ | ⟨tree2, lm2, hcl2, hdl2, hfr⟩
  · rw [hcl] at hcl2
    have hp := Option.some.inj hcl2
    injection hp with hi hs
    subst hi
    rw [hfr]
    constructor
    · intro u
      simp [hlog0 u]
    · intro lm hlm0
      rw [hlm0] at hlm2
      simp at hlm2
  · rw [hcl] at hcl2
    have hp := Option.some.inj hcl2
    injection hp with hi hs
    subst hi
    subst hs
    rw [hfr]
    constructor
    · intro u
      simp [hlog0 u]
    · intro lm hlm0
      rw [hlm0] at hlm2
      have hl := Except.ok.inj hlm2
      subst hl
      rfl
  · rw [hcl] at hcl2; simp at hcl2
  · rw [hcl] at hcl2; simp at hcl2

theorem fetch_with_rev_hit (env : FetchEnv) (cache : Cache) (input3 : Input) (rev : Hash)
    (info : Attrs) (sp : String) (lm : Int)
    (hrev : input3.getRev = some rev)
    (hcl : cacheLookup cache (immutableAttrs rev) = some (info, sp))
    (hlm : getIntAttr info "lastModified" = .ok lm) :
    (fetch env cache input3).1 =
      .ok (⟨env.toRealPath sp, sp⟩,
           ⟨attrInsert (pinnedInput (normalizeRef input3) rev).attrs "lastModified" (.int lm)⟩) ∧
    (∀ i, NetCall.resolveRef i ∉ (fetch env cache input3).2.2) ∧
    (∀ u, NetCall.downloadTarball u ∉ (fetch env cache input3).2.2) := by
  rcases fetch_cases env cache input3 with
    ⟨rev1, hgr1, hrv1, heq⟩ | ⟨e1, hgr1, hre1, hrv1, heq⟩ | ⟨rev1, hgr1, hre1, hrv1, heq⟩
  · rw [getRev_normalizeRef, hrev] at hgr1
    have h := Option.some.inj hgr1
    subst h
    rw [heq]
    obtain ⟨hdu, hok⟩ := fetchResolved_on_hit env cache (normalizeRef input3) rev [] info sp
      hcl (by intro u h; simp at h)
    refine ⟨hok lm hlm, ?_, hdu⟩
    rcases fetchResolved_cases env cache (normalizeRef input3) rev [] with
      ⟨info2, sp2, e2, hcl2, hlm2, hfr⟩ | ⟨info2, sp2, lm2, hcl2, hlm2, hfr⟩ |
      ⟨e2, hcl2, hdl2, hfr⟩ | ⟨tree2, lm2, hcl2, hdl2, hfr⟩ <;>
    · rw [hfr]; intro i; simp
  · rw [getRev_normalizeRef, hrev] at hgr1; simp at hgr1
  · rw [getRev_normalizeRef, hrev] at hgr1; simp at hgr1

theorem fetchResolved_after_success (env : FetchEnv) (cache : Cache) (input1 : Input)
    (rev : Hash) (log0 : List NetCall) (tree : Tree) (input3 : Input)
    (hres : (fetchResolved env cache input1 rev log0).1 = .ok (tree, input3)) :
    ∃ tree2 input4,
      (fetch env (fetchResolved env cache input1 rev log0).2.1 input3).1 = .ok (tree2, input4) ∧
      tree2.storePath = tree.storePath ∧
      (∀ i, NetCall.resolveRef i ∉
        (fetch env (fetchResolved env cache input1 rev log0).2.1 input3).2.2) ∧
      (∀ u, NetCall.downloadTarball u ∉
        (fetch env (fetchResolved env cache input1 rev log0).2.1 input3).2.2) := by
  rcases fetchResolved_cases env cache input1 rev log0 with
    ⟨info2, sp2, e2, hcl2, hlm2, hfr⟩ | ⟨info2, sp2, lm2, hcl2, hlm2, hfr⟩ |
    ⟨e2, hcl2, hdl2, hfr⟩ | ⟨tree2, lm2, hcl2, hdl2, hfr⟩
  · rw [hfr] at hres; simp at hres
  · rw [hfr] at hres ⊢
    simp at hres
    obtain ⟨ht, hi⟩ := hres
    subst ht
    subst hi
    obtain ⟨h1, h2, h3⟩ := fetch_with_rev_hit env cache
      ⟨attrInsert (pinnedInput input1 rev).attrs "lastModified" (.int lm2)⟩ rev info2 sp2 lm2
      (getRev_outputInput input1 rev lm2) hcl2 hlm2
    exact ⟨⟨env.toRealPath sp2, sp2⟩, _, h1, rfl, h2, h3⟩
  · rw [hfr] at hres; simp at hres
  · rw [hfr] at hres ⊢
    simp at hres
    obtain ⟨ht, hi⟩ := hres
    subst ht
    subst hi
    obtain ⟨h1, h2, h3⟩ := fetch_with_rev_hit env
      (cacheAdd cache (immutableAttrs rev) (cacheInfoAttrs rev lm2) tree2.storePath)
      ⟨attrInsert (pinnedInput input1 rev).attrs "lastModified" (.int lm2)⟩ rev
      (cacheInfoAttrs rev lm2) tree2.storePath lm2
      (getRev_outputInput input1 rev lm2)
      (cacheLookup_cacheAdd_self cache (immutableAttrs rev) (cacheInfoAttrs rev lm2)
        tree2.storePath)
      (getIntAttr_cacheInfoAttrs rev lm2)
    exact ⟨⟨env.toRealPath tree2.storePath, tree2.storePath⟩, _, h1, rfl, h2, h3⟩

theorem fetch_after_success (env : FetchEnv) (cache : Cache) (input0 : Input) :
    ∀ tree input3, (fetch env cache input0).1 = .ok (tree, input3) →
      ∃ tree2 input4,
        (fetch env (fetch env cache input0).2.1 input3).1 = .ok (tree2, input4) ∧
        tree2.storePath = tree.storePath ∧
        (∀ i, NetCall.resolveRef i ∉ (fetch env (fetch env cache input0).2.1 input3).2.2) ∧
        (∀ u, NetCall.downloadTarball u ∉
          (fetch env (fetch env cache input0).2.1 input3).2.2) := by
  intro tree input3 hres
  rcases fetch_cases env cache input0 with
    ⟨rev, hgr, hrv, heq⟩ | ⟨e, hgr, hre, hrv, heq⟩ | ⟨rev, hgr, hre, hrv, heq⟩
  · rw [heq] at hres ⊢
    exact fetchResolved_after_success env cache (normalizeRef input0) rev [] tree input3 hres
  · rw [heq] at hres; simp at hres
  · rw [heq] at hres ⊢
    exact fetchResolved_after_success env cache (normalizeRef input0) rev
      [.resolveRef (normalizeRef input0)] tree input3 hres

/-- C4: an input already carrying a rev triggers no ref-resolution call; a
cache hit for the resolved rev triggers no download call and returns the
cached tree path with the cached `lastModified`; a second fetch of a
successfully fetched input makes no network call and yields the same store
path. -/
theorem fetch_caching_behavior (env : FetchEnv) (cache : Cache) (input0 : Input) :
    (input0.getRev.isSome = true →
      ∀ i, NetCall.resolveRef i ∉ (fetch env cache input0).2.2) ∧
    (∀ rev info sp,
      resolvedRev env input0 = .ok rev →
      cacheLookup cache (immutableAttrs rev) = some (info, sp) →
      (∀ u, NetCall.downloadTarball u ∉ (fetch env cache input0).2.2) ∧
      (∀ lm, getIntAttr info "lastModified" = .ok lm →
        (fetch env cache input0).1 =
          .ok (⟨env.toRealPath sp, sp⟩,
               ⟨attrInsert (pinnedInput (normalizeRef input0) rev).attrs
                  "lastModified" (.int lm)⟩))) ∧
    (∀ tree input3, (fetch env cache input0).1 = .ok (tree, input3) →
      ∃ tree2 input4,
        (fetch env (fetch env cache input0).2.1 input3).1 = .ok (tree2, input4) ∧
        tree2.storePath = tree.storePath ∧
        (∀ i, NetCall.resolveRef i ∉ (fetch env (fetch env cache input0).2.1 input3).2.2) ∧
        (∀ u, NetCall.downloadTarball u ∉ (fetch env (fetch env cache input0).2.1 input3).2.2)) := by
  refine ⟨?_, ?_, ?_⟩
  · intro hrev i
    rcases fetch_cases env cache input0 with
      ⟨rev, hgr, hrv, heq⟩ | ⟨e, hgr, hre, hrv, heq⟩ | ⟨rev, hgr, hre, hrv, heq⟩
    · rcases fetchResolved_cases env cache (normalizeRef input0) rev [] with
        ⟨info, sp, e, hcl, hlm, hfr⟩ | ⟨info, sp, lm, hcl, hlm, hfr⟩ |
        ⟨e, hcl, hdl, hfr⟩ | ⟨tree, lm, hcl, hdl, hfr⟩ <;>
      · rw [heq, hfr]; simp
    · rw [getRev_normalizeRef] at hgr
      rw [hgr] at hrev
      simp at hrev
    · rw [getRev_normalizeRef] at hgr
      rw [hgr] at hrev
      simp at hrev
  · intro rev info sp hrv hcl
    rcases fetch_cases env cache input0 with
      ⟨rev1, hgr1, hrv1, heq⟩ | ⟨e1, hgr1, hre1, hrv1, heq⟩ | ⟨rev1, hgr1, hre1, hrv1, heq⟩
    · rw [hrv] at hrv1
      have h := Except.ok.inj hrv1
      subst h
      rw [heq]
      exact fetchResolved_on_hit env cache (normalizeRef input0) rev [] info sp hcl
        (by intro u h; simp at h)
    · rw [hrv] at hrv1
      simp at hrv1
    · rw [hrv] at hrv1
      have h := Except.ok.inj hrv1
      subst h
      rw [heq]
      exact fetchResolved_on_hit env cache (normalizeRef input0) rev
        [.resolveRef (normalizeRef input0)] info sp hcl (by intro u h; simp at h)
  · exact fetch_after_success env cache input0

instance {ε α : Type} [DecidableEq ε] [DecidableEq α] : DecidableEq (Except ε α) := fun x y =>
  match x, y with
  | .ok a, .ok b =>
    if h : a = b then .isTrue (by rw [h]) else .isFalse (fun he => by cases he; exact h rfl)
  | .error a, .error b =>
    if h : a = b then .isTrue (by rw [h]) else .isFalse (fun he => by cases he; exact h rfl)
  | .ok _, .error _ => .isFalse (fun he => by cases he)
  | .error _, .ok _ => .isFalse (fun he => by cases he)

/-- A concrete revision string: forty times the letter a. -/
def sampleRevStr : String := "aaaaaaaaaaaaaaaaaaaaaaaaaaaaaaaaaaaaaaaa"

theorem sampleRevStr_isRev : isRevString sampleRevStr = true := by decide

/-- A concrete revision used by the witnesses. -/
def sampleHash : Hash := ⟨sampleRevStr, sampleRevStr_isRev⟩

theorem mkAttrs_ref (t ow rp : String) (st : QState) :
    maybeGetStrAttr (mkAttrs t ow rp st) "ref" = st.ref := by
  obtain ⟨orev, oref, ohost⟩ := st
  cases orev <;> cases oref <;> cases ohost <;> simp [mkAttrs, maybeGetStrAttr]

theorem mkAttrs_rev (t ow rp : String) (st : QState) :
    maybeGetStrAttr (mkAttrs t ow rp st) "rev" = st.rev.map Hash.gitRev := by
  obtain ⟨orev, oref, ohost⟩ := st
  cases orev <;> cases oref <;> cases ohost <;> simp [mkAttrs, maybeGetStrAttr]

theorem mkAttrs_owner (t ow rp : String) (st : QState) :
    maybeGetStrAttr (mkAttrs t ow rp st) "owner" = some ow := by
  obtain ⟨orev, oref, ohost⟩ := st
  cases orev <;> cases oref <;> cases ohost <;> simp [mkAttrs, maybeGetStrAttr]

theorem mkAttrs_repo (t ow rp : String) (st : QState) :
    maybeGetStrAttr (mkAttrs t ow rp st) "repo" = some rp := by
  obtain ⟨orev, oref, ohost⟩ := st
  cases orev <;> cases oref <;> cases ohost <;> simp [mkAttrs, maybeGetStrAttr]

theorem mkAttrs_host (t ow rp : String) (st : QState) :
    maybeGetStrAttr (mkAttrs t ow rp st) "host" = st.host := by
  obtain ⟨orev, oref, ohost⟩ := st
  cases orev <;> cases oref <;> cases ohost <;> simp [mkAttrs, maybeGetStrAttr]

theorem mkAttrs_lastModified (t ow rp : String) (st : QState) :
    maybeGetIntAttr (mkAttrs t ow rp st) "lastModified" = none := by
  obtain ⟨orev, oref, ohost⟩ := st
  cases orev <;> cases oref <;> cases ohost <;> simp [mkAttrs, maybeGetIntAttr]

theorem mkAttrs_getRev (t ow rp : String) (st : QState) :
    (Input.mk (mkAttrs t ow rp st)).getRev = st.rev := by
  cases hr : st.rev <;>
    simp [Input.getRev, mkAttrs_rev, hr, Hash.parseAny_gitRev]

theorem afterPath_success (t urlText : String) (query : List (String × String))
    (owner repo : String) (st0 : QState)
    (i : Input) (h : afterPath t urlText query owner repo st0 = .ok i) :
    ∃ st, processQuery urlText query st0 = .ok st ∧
      (st.ref.isSome && st.rev.isSome) = false ∧ i = ⟨mkAttrs t owner repo st⟩ := by
  unfold afterPath at h
  cases hq : processQuery urlText query st0 with
  | error e => rw [hq] at h; simp at h
  | ok st =>
    rw [hq] at h
    cases hb : (st.ref.isSome && st.rev.isSome) with
    | true => simp [hb] at h
    | false =>
      simp [hb] at h
      exact ⟨st, rfl, hb, h.symm⟩

theorem inputFromURL_success (t : String) (url : ParsedURL) (i : Input)
    (h : inputFromURL t url = .ok (some i)) :
    url.scheme = t ∧
    ∃ ow rp st, i.attrs = mkAttrs t ow rp st ∧ (st.ref.isSome && st.rev.isSome) = false := by
  unfold inputFromURL at h
  by_cases hs : url.scheme ≠ t
  · simp [hs] at h
  · refine ⟨of_not_not hs, ?_⟩
    simp only [hs, if_false, ite_false, if_neg hs] at h
    cases hl : tokenizeString url.path with
    | nil => rw [hl] at h; simp at h
    | cons a l1 =>
      cases l1 with
      | nil => rw [hl] at h; simp at h
      | cons b l2 =>
        cases l2 with
        | nil =>
          rw [hl] at h
          replace h : Except.map some (afterPath t url.url url.query a b ⟨none, none, none⟩)
              = .ok (some i) := h
          cases ha : afterPath t url.url url.query a b ⟨none, none, none⟩ with
          | error e => rw [ha] at h; simp [Except.map] at h
          | ok i2 =>
            rw [ha] at h
            simp [Except.map] at h
            obtain ⟨st, hq, hb, hi⟩ :=
              afterPath_success t url.url url.query a b ⟨none, none, none⟩ i2 ha
            subst h
            exact ⟨a, b, st, by rw [hi], hb⟩
        | cons c l3 =>
          cases l3 with
          | nil =>
            rw [hl] at h
            replace h : (classifySegment url.url c).bind
                (fun p => Except.map some (afterPath t url.url url.query a b ⟨p.1, p.2, none⟩))
                = .ok (some i) := h
            cases hc : classifySegment url.url c with
            | error e => rw [hc] at h; simp [Except.bind] at h
            | ok p =>
              obtain ⟨orev, oref⟩ := p
              rw [hc] at h
              simp only [Except.bind] at h
              cases ha : afterPath t url.url url.query a b ⟨orev, oref, none⟩ with
              | error e => rw [ha] at h; simp [Except.map] at h
              | ok i2 =>
                rw [ha] at h
                simp [Except.map] at h
                obtain ⟨st, hq, hb, hi⟩ :=
                  afterPath_success t url.url url.query a b ⟨orev, oref, none⟩ i2 ha
                subst h
                exact ⟨a, b, st, by rw [hi], hb⟩
          | cons d l4 => rw [hl] at h; simp at h

theorem inputFromAttrs_ok (t : String) (attrs : Attrs) (i : Input)
    (h : inputFromAttrs t attrs = .ok (some i)) : i = ⟨attrs⟩ := by
  unfold inputFromAttrs at h
  split at h
  · simp at h
  · split at h
    · simp at h
    · split at h
      · simp at h
      · split at h
        · simp at h
        · simp at h
          exact h.symm

theorem inputFromURL_not_both (t : String) (url : ParsedURL) (i : Input)
    (h : inputFromURL t url = .ok (some i)) :
    ((maybeGetStrAttr i.attrs "ref").isSome && (maybeGetStrAttr i.attrs "rev").isSome)
      = false := by
  obtain ⟨-, ow, rp, st, hattrs, hb⟩ := inputFromURL_success t url i h
  rw [hattrs, mkAttrs_ref, mkAttrs_rev]
  cases hrev : st.rev <;> cases href : st.ref <;> simp_all

/-- A concrete attribute bag carrying both `ref` and `rev`. -/
def bothAttrs : Attrs :=
  [("type", .str "github"), ("owner", .str "a"), ("repo", .str "b"),
   ("ref", .str "main"), ("rev", .str sampleRevStr)]

/-- C5 counterexample: raw-attribute validation (`inputFromAttrs`) accepts a
bag carrying both `ref` and `rev` and returns the input verbatim, with both
attributes present — so not every input-constructing operation maintains the
ref/rev exclusion. -/
theorem inputFromAttrs_accepts_ref_and_rev :
    inputFromAttrs "github" bothAttrs = .ok (some ⟨bothAttrs⟩) ∧
    maybeGetStrAttr bothAttrs "ref" = some "main" ∧
    maybeGetStrAttr bothAttrs "rev" = some sampleRevStr := by
  refine ⟨by rfl, by rfl, by rfl⟩

/-- C5 (amended): URL parsing never yields both `ref` and `rev`;
`applyOverrides` with at least one override set erases the other and never
yields both, and supplying both overrides is always a BadURL error; a
successful `fetch` never returns both.  (Raw-attribute validation, by
contrast, passes a bag already containing both through verbatim.) -/
theorem ref_rev_exclusive_amended :
    (∀ t url i, inputFromURL t url = .ok (some i) →
      ((maybeGetStrAttr i.attrs "ref").isSome && (maybeGetStrAttr i.attrs "rev").isSome)
        = false) ∧
    (∀ input ref rev i, (ref.isSome || rev.isSome) = true →
      applyOverrides input ref rev = .ok i →
      ((maybeGetStrAttr i.attrs "ref").isSome && (maybeGetStrAttr i.attrs "rev").isSome)
        = false) ∧
    (∀ input ref rev, ref.isSome = true → rev.isSome = true →
      ∃ msg, applyOverrides input ref rev = .error (.badURL msg)) ∧
    (∀ env cache input0 tree input3, (fetch env cache input0).1 = .ok (tree, input3) →
      ((maybeGetStrAttr input3.attrs "ref").isSome &&
       (maybeGetStrAttr input3.attrs "rev").isSome) = false) := by
  refine ⟨inputFromURL_not_both, ?_, ?_, ?_⟩
  · intro input ref rev i hor h
    cases rev with
    | some hv =>
      cases ref with
      | some r => simp [applyOverrides] at h
      | none =>
        simp [applyOverrides] at h
        subst h
        simp [maybeGetStrAttr]
    | none =>
      cases ref with
      | none => simp at hor
      | some r =>
        simp [applyOverrides] at h
        subst h
        simp [maybeGetStrAttr]
  · intro input ref rev h1 h2
    obtain ⟨r, hr⟩ := Option.isSome_iff_exists.mp h1
    obtain ⟨v, hv⟩ := Option.isSome_iff_exists.mp h2
    subst hr
    subst hv
    exact ⟨"cannot apply both a commit hash and a branch/tag name to input",
      by simp [applyOverrides]⟩
  · intro env cache input0 tree input3 h
    rcases fetch_cases env cache input0 with
      ⟨rev, hgr, hrv, heq⟩ | ⟨e, hgr, hre, hrv, heq⟩ | ⟨rev, hgr, hre, hrv, heq⟩
    · rw [heq] at h
      obtain ⟨h1, h2, lm, h3⟩ :=
        fetchResolved_success_shape env cache (normalizeRef input0) rev [] tree input3 h
      simp [h1]
    · rw [heq] at h; simp at h
    · rw [heq] at h
      obtain ⟨h1, h2, lm, h3⟩ :=
        fetchResolved_success_shape env cache (normalizeRef input0) rev
          [.resolveRef (normalizeRef input0)] tree input3 h
      simp [h1]

/-- A concrete attribute bag carrying `rev` and `lastModified`. -/
def lmAttrs : Attrs :=
  [("type", .str "github"), ("owner", .str "a"), ("repo", .str "b"),
   ("rev", .str sampleRevStr), ("lastModified", .int 5)]

/-- C6 counterexample: a raw attribute bag may already carry `rev` and
`lastModified` (both are whitelisted names), validation passes it through
verbatim, and `hasAllInfo` is true immediately after `inputFromAttrs`. -/
theorem inputFromAttrs_can_satisfy_hasAllInfo :
    inputFromAttrs "github" lmAttrs = .ok (some ⟨lmAttrs⟩) ∧
    hasAllInfo ⟨lmAttrs⟩ = true := by
  refine ⟨by rfl, by rfl⟩

/-- C6 (amended): `hasAllInfo` holds exactly when both a revision and a
`lastModified` are present; it is false after URL parsing and true after a
successful fetch; after raw-attribute validation the input is the bag
verbatim, so `hasAllInfo` simply reflects the bag, which may already
contain both `rev` and `lastModified`. -/
theorem hasAllInfo_spec :
    (∀ i : Input, hasAllInfo i = true ↔
      ((∃ h, i.getRev = some h) ∧ (∃ n, maybeGetIntAttr i.attrs "lastModified" = some n))) ∧
    (∀ t url i, inputFromURL t url = .ok (some i) → hasAllInfo i = false) ∧
    (∀ t attrs i, inputFromAttrs t attrs = .ok (some i) → i = ⟨attrs⟩) ∧
    (∀ env cache input0 tree input3,
      (fetch env cache input0).1 = .ok (tree, input3) → hasAllInfo input3 = true) := by
  refine ⟨?_, ?_, inputFromAttrs_ok, ?_⟩
  · intro i
    unfold hasAllInfo
    rw [Bool.and_eq_true]
    constructor
    · rintro ⟨h1, h2⟩
      exact ⟨Option.isSome_iff_exists.mp h1, Option.isSome_iff_exists.mp h2⟩
    · rintro ⟨⟨h, hh⟩, ⟨n, hn⟩⟩
      simp [hh, hn]
  · intro t url i h
    obtain ⟨-, ow, rp, st, hattrs, -⟩ := inputFromURL_success t url i h
    simp [hasAllInfo, hattrs, mkAttrs_lastModified]
  · intro env cache input0 tree input3 h
    rcases fetch_cases env cache input0 with
      ⟨rev, hgr, hrv, heq⟩ | ⟨e, hgr, hre, hrv, heq⟩ | ⟨rev, hgr, hre, hrv, heq⟩
    · rw [heq] at h
      obtain ⟨h1, h2, lm, h3⟩ :=
        fetchResolved_success_shape env cache (normalizeRef input0) rev [] tree input3 h
      simp [hasAllInfo, Input.getRev, h2, h3, Hash.parseAny_gitRev]
    · rw [heq] at h; simp at h
    · rw [heq] at h
      obtain ⟨h1, h2, lm, h3⟩ :=
        fetchResolved_success_shape env cache (normalizeRef input0) rev
          [.resolveRef (normalizeRef input0)] tree input3 h
      simp [hasAllInfo, Input.getRev, h2, h3, Hash.parseAny_gitRev]

/-- A gitlab input with an explicit `host` attribute. -/
def gitlabHostInput : Input :=
  ⟨[("type", .str "gitlab"), ("owner", .str "a"), ("repo", .str "b"),
    ("ref", .str "main"), ("host", .str "gitlab.example.com")]⟩

/-- A github input with an explicit `host` attribute. -/
def githubHostInput : Input :=
  ⟨[("type", .str "github"), ("owner", .str "a"), ("repo", .str "b"),
    ("ref", .str "main"), ("host", .str "example.com")]⟩

/-- C8: the GitHub variant builds its commit endpoint from the `host`
attribute, but the GitLab variant reads the attribute named `url` (which no
constructor can ever set, `url` not being whitelisted), so its endpoint
ignores the `host` of the input and always uses `gitlab.com`. -/
theorem gitlab_getRevFromRef_ignores_host :
    githubGetRevFromRefUrl githubHostInput =
      .ok "https://api.example.com/repos/a/b/commits/main" ∧
    gitlabGetRevFromRefUrl gitlabHostInput =
      .ok "https://gitlab.com/api/v4/projects/a%2Fb/repository/commits?ref_name=main" ∧
    maybeGetStrAttr gitlabHostInput.attrs "host" = some "gitlab.example.com" := by
  refine ⟨by rfl, by rfl, by rfl⟩

/-- A concrete environment for witnesses: resolution always yields
`sampleHash`, downloads always succeed. -/
def sampleEnv : FetchEnv where
  resolveRev := fun _ => .ok sampleHash
  download := fun _ _ => .ok (⟨"/real/store", "store"⟩, 5)
  toRealPath := fun p => String.append "/real/" p
  getDownloadUrl := fun _ => ⟨"https://example.com/tarball", none⟩

/-- An environment in which every network operation fails. -/
def failEnv : FetchEnv where
  resolveRev := fun _ => .error (.err "offline")
  download := fun _ _ => .error (.err "offline")
  toRealPath := fun p => p
  getDownloadUrl := fun _ => ⟨"u", none⟩

def sampleInput : Input :=
  ⟨[("type", .str "github"), ("owner", .str "NixOS"), ("repo", .str "nixpkgs")]⟩

def sampleTree : Tree := ⟨"/real/store", "store"⟩

def sampleFetchedInput : Input :=
  ⟨[("type", .str "github"), ("owner", .str "NixOS"), ("repo", .str "nixpkgs"),
    ("rev", .str sampleRevStr), ("lastModified", .int 5)]⟩

def revInput : Input :=
  ⟨[("type", .str "github"), ("owner", .str "NixOS"), ("repo", .str "nixpkgs"),
    ("rev", .str sampleRevStr)]⟩

theorem fetch_success_shape_witness :
    maybeGetStrAttr sampleFetchedInput.attrs "ref" = none ∧
    (∃ rev, resolvedRev sampleEnv sampleInput = .ok rev ∧
      maybeGetStrAttr sampleFetchedInput.attrs "rev" = some rev.gitRev ∧
      isRevString rev.gitRev = true) ∧
    (∃ lm, maybeGetIntAttr sampleFetchedInput.attrs "lastModified" = some lm) :=
  (fetch_success_shape sampleEnv [] sampleInput).1 sampleTree sampleFetchedInput (by rfl)

theorem fetch_cache_key_pure_witness :
    ∃ rev, resolvedRev sampleEnv sampleInput = .ok rev ∧
      immutableAttrs sampleHash = immutableAttrs rev ∧
      attrGet (immutableAttrs sampleHash) "ref" = none ∧
      attrGet (immutableAttrs sampleHash) "host" = none ∧
      attrGet (immutableAttrs sampleHash) "owner" = none ∧
      attrGet (immutableAttrs sampleHash) "repo" = none :=
  fetch_cache_key_pure.1 sampleEnv [] sampleInput (immutableAttrs sampleHash)
    (Or.inl (by decide))

theorem fetch_no_partial_cache_write_witness :
    (fetch failEnv [] sampleInput).2.1 = ([] : Cache) :=
  (fetch_no_partial_cache_write failEnv [] sampleInput).1 ⟨.err "offline", by rfl⟩

theorem fetch_caching_behavior_witness :
    NetCall.resolveRef sampleInput ∉ (fetch sampleEnv [] revInput).2.2 :=
  (fetch_caching_behavior sampleEnv [] revInput).1 (by rfl) sampleInput

theorem ref_rev_exclusive_amended_witness :
    ∃ msg, applyOverrides sampleInput (some "main") (some sampleHash)
      = .error (.badURL msg) :=
  ref_rev_exclusive_amended.2.2.1 sampleInput (some "main") (some sampleHash) rfl rfl

/-- A concrete parsed URL for `github:NixOS/nixpkgs`. -/
def sampleURL : ParsedURL := ⟨"github", "github:NixOS/nixpkgs", "NixOS/nixpkgs", []⟩

theorem hasAllInfo_spec_witness : hasAllInfo sampleInput = false :=
  hasAllInfo_spec.2.1 "github" sampleURL sampleInput (by rfl)

@[simp] theorem errorBind_eq {ε α β : Type} (e : ε) (f : α → Except ε β) :
    (Except.error e : Except ε α).bind f = .error e := rfl

@[simp] theorem okBind_eq {ε α β : Type} (a : α) (f : α → Except ε β) :
    (Except.ok a : Except ε α).bind f = f a := rfl

theorem attrErase_append (a b : Attrs) (n : String) :
    attrErase (a ++ b) n = attrErase a n ++ attrErase b n := by
  induction a with
  | nil => simp [attrErase]
  | cons p rest ih =>
    obtain ⟨k, v⟩ := p
    by_cases hk : k = n <;> simp [attrErase, hk, ih]

theorem attrErase_idem (a : Attrs) (n : String) :
    attrErase (attrErase a n) n = attrErase a n := by
  induction a with
  | nil => simp [attrErase]
  | cons p rest ih =>
    obtain ⟨k, v⟩ := p
    by_cases hk : k = n <;> simp [attrErase, hk, ih]

theorem attrInsert_attrInsert_same (a : Attrs) (n : String) (v w : AttrValue) :
    attrInsert (attrInsert a n v) n w = attrInsert a n w := by
  unfold attrInsert
  rw [attrErase_append, attrErase_idem]
  simp [attrErase]

theorem mkAttrs_host_update (t ow rp : String) (st : QState) (h : String) :
    mkAttrs t ow rp { st with host := some h } =
      attrInsert (mkAttrs t ow rp st) "host" (.str h) := by
  obtain ⟨orev, oref, ohost⟩ := st
  cases orev <;> cases oref <;> cases ohost <;>
    simp [mkAttrs, attrInsert_attrInsert_same]

theorem processQuery_append (u : String) :
    ∀ (q1 q2 : List (String × String)) (st : QState),
      processQuery u (q1 ++ q2) st =
        (processQuery u q1 st).bind (fun st2 => processQuery u q2 st2) := by
  intro q1
  induction q1 with
  | nil => intro q2 st; rfl
  | cons p rest ih =>
    intro q2 st
    obtain ⟨n, w⟩ := p
    by_cases h1 : n = "rev"
    · subst h1
      cases hr : st.rev with
      | some x => simp [processQuery, hr]
      | none =>
        cases hp : Hash.parseAny w <;> simp [processQuery, hr, hp, ih]
    · by_cases h2 : n = "ref"
      · subst h2
        cases hrm : refRegexMatch w with
        | false => simp [processQuery, hrm]
        | true =>
          cases hsr : st.ref <;> simp [processQuery, hrm, hsr, ih]
      · by_cases h3 : n = "host"
        · subst h3
          cases hu : urlRegexMatch w <;> simp [processQuery, hu, ih]
        · simp [processQuery, h1, h2, h3, ih]

theorem processQuery_rev_mono (u : String) :
    ∀ (q : List (String × String)) (st st2 : QState),
      processQuery u q st = .ok st2 → st.rev.isSome = true → st2.rev.isSome = true := by
  intro q
  induction q with
  | nil =>
    intro st st2 h hs
    replace h : (Except.ok st : Except Err QState) = .ok st2 := h
    cases Except.ok.inj h
    exact hs
  | cons p rest ih =>
    intro st st2 h hs
    obtain ⟨n, w⟩ := p
    by_cases h1 : n = "rev"
    · subst h1
      obtain ⟨x, hx⟩ := Option.isSome_iff_exists.mp hs
      simp [processQuery, hx] at h
    · by_cases h2 : n = "ref"
      · subst h2
        cases hrm : refRegexMatch w with
        | false => simp [processQuery, hrm] at h
        | true =>
          cases hsr : st.ref with
          | some r => simp [processQuery, hrm, hsr] at h
          | none =>
            simp [processQuery, hrm, hsr] at h
            exact ih _ _ h (by simpa using hs)
      · by_cases h3 : n = "host"
        · subst h3
          cases hu : urlRegexMatch w with
          | false => simp [processQuery, hu] at h
          | true =>
            simp [processQuery, hu] at h
            exact ih _ _ h (by simpa using hs)
        · simp [processQuery, h1, h2, h3] at h
          exact ih _ _ h hs

theorem processQuery_ref_mono (u : String) :
    ∀ (q : List (String × String)) (st st2 : QState),
      processQuery u q st = .ok st2 → st.ref.isSome = true → st2.ref.isSome = true := by
  intro q
  induction q with
  | nil =>
    intro st st2 h hs
    replace h : (Except.ok st : Except Err QState) = .ok st2 := h
    cases Except.ok.inj h
    exact hs
  | cons p rest ih =>
    intro st st2 h hs
    obtain ⟨n, w⟩ := p
    by_cases h1 : n = "rev"
    · subst h1
      cases hr : st.rev with
      | some x => simp [processQuery, hr] at h
      | none =>
        cases hp : Hash.parseAny w with
        | error e => simp [processQuery, hr, hp] at h
        | ok hsh =>
          simp [processQuery, hr, hp] at h
          exact ih _ _ h (by simpa using hs)
    · by_cases h2 : n = "ref"
      · subst h2
        cases hrm : refRegexMatch w with
        | false => simp [processQuery, hrm] at h
        | true =>
          obtain ⟨r, hr⟩ := Option.isSome_iff_exists.mp hs
          simp [processQuery, hrm, hr] at h
      · by_cases h3 : n = "host"
        · subst h3
          cases hu : urlRegexMatch w with
          | false => simp [processQuery, hu] at h
          | true =>
            simp [processQuery, hu] at h
            exact ih _ _ h (by simpa using hs)
        · simp [processQuery, h1, h2, h3] at h
          exact ih _ _ h hs

theorem processQuery_single_host (u h : String) (st : QState)
    (hv : urlRegexMatch h = true) :
    processQuery u [("host", h)] st = .ok { st with host := some h } := by
  simp [processQuery, hv]

theorem processQuery_single_rev_dup (u v : String) (st : QState) (x : Hash)
    (hx : st.rev = some x) :
    ∃ e, processQuery u [("rev", v)] st = .error e :=
  ⟨.badURL s!"URL {u} contains multiple commit hashes", by simp [processQuery, hx]⟩

theorem processQuery_single_ref_dup (u v : String) (st : QState) (r : String)
    (hx : st.ref = some r) :
    ∃ e, processQuery u [("ref", v)] st = .error e := by
  cases hrm : refRegexMatch v with
  | false =>
    exact ⟨.badURL s!"URL {u} contains an invalid branch/tag name",
      by simp [processQuery, hrm]⟩
  | true =>
    exact ⟨.badURL s!"URL {u} contains multiple branch/tag names",
      by simp [processQuery, hrm, hx]⟩

theorem processQuery_filter (u : String) :
    ∀ (q : List (String × String)) (st : QState),
      processQuery u (q.filter (fun p => p.1 == "rev" || p.1 == "ref" || p.1 == "host")) st
        = processQuery u q st := by
  intro q
  induction q with
  | nil => intro st; rfl
  | cons p rest ih =>
    intro st
    obtain ⟨n, w⟩ := p
    by_cases h1 : n = "rev"
    · subst h1
      simp only [List.filter_cons]
      cases hr : st.rev with
      | some x => simp [processQuery, hr]
      | none =>
        cases hp : Hash.parseAny w <;> simp [processQuery, hr, hp, ih]
    · by_cases h2 : n = "ref"
      · subst h2
        simp only [List.filter_cons]
        cases hrm : refRegexMatch w with
        | false => simp [processQuery, hrm]
        | true =>
          cases hsr : st.ref <;> simp [processQuery, hrm, hsr, ih]
      · by_cases h3 : n = "host"
        · subst h3
          simp only [List.filter_cons]
          cases hu : urlRegexMatch w <;> simp [processQuery, hu, ih]
        · have hdrop : (n == "rev" || n == "ref" || n == "host") = false := by
            simp [h1, h2, h3]
          simp only [List.filter_cons, hdrop]
          simp [processQuery, h1, h2, h3, ih]

@[simp] theorem ParsedURL_scheme_mk (s u p : String) (q : List (String × String)) :
    (ParsedURL.mk s u p q).scheme = s := rfl

@[simp] theorem ParsedURL_url_mk (s u p : String) (q : List (String × String)) :
    (ParsedURL.mk s u p q).url = u := rfl

@[simp] theorem ParsedURL_path_mk (s u p : String) (q : List (String × String)) :
    (ParsedURL.mk s u p q).path = p := rfl

@[simp] theorem ParsedURL_query_mk (s u p : String) (q : List (String × String)) :
    (ParsedURL.mk s u p q).query = q := rfl

theorem inputFromURL_eq_noscheme (t : String) (url : ParsedURL) (hs : url.scheme ≠ t) :
    inputFromURL t url = .ok none := by
  unfold inputFromURL
  rw [if_pos hs]

theorem inputFromURL_eq_2 (t : String) (url : ParsedURL) (ow rp : String)
    (hs : url.scheme = t) (hl : tokenizeString url.path = [ow, rp]) :
    inputFromURL t url =
      (afterPath t url.url url.query ow rp ⟨none, none, none⟩).map some := by
  unfold inputFromURL
  rw [if_neg (by simp [hs]), hl]

theorem inputFromURL_eq_3 (t : String) (url : ParsedURL) (ow rp seg : String)
    (hs : url.scheme = t) (hl : tokenizeString url.path = [ow, rp, seg]) :
    inputFromURL t url = (classifySegment url.url seg).bind
      (fun p => (afterPath t url.url url.query ow rp ⟨p.1, p.2, none⟩).map some) := by
  unfold inputFromURL
  rw [if_neg (by simp [hs]), hl]

theorem inputFromURL_eq_other (t : String) (url : ParsedURL) (hs : url.scheme = t)
    (h2 : ∀ ow rp, tokenizeString url.path ≠ [ow, rp])
    (h3 : ∀ ow rp seg, tokenizeString url.path ≠ [ow, rp, seg]) :
    inputFromURL t url = .error (.badURL s!"URL {url.url} is invalid") := by
  unfold inputFromURL
  rw [if_neg (by simp [hs])]
  cases hlist : tokenizeString url.path with
  | nil => rfl
  | cons a l1 =>
    cases l1 with
    | nil => rfl
    | cons b l2 =>
      cases l2 with
      | nil => exact absurd hlist (h2 a b)
      | cons c l3 =>
        cases l3 with
        | nil => exact absurd hlist (h3 a b c)
        | cons d l4 => rfl

theorem afterPath_error (t urlText : String) (query : List (String × String))
    (owner repo : String) (st0 : QState) (e : Err)
    (he : processQuery urlText query st0 = .error e) :
    afterPath t urlText query owner repo st0 = .error e := by
  unfold afterPath
  rw [he]

theorem afterPath_eq_ok (t urlText : String) (query : List (String × String))
    (owner repo : String) (st0 st : QState)
    (hq : processQuery urlText query st0 = .ok st)
    (hb : (st.ref.isSome && st.rev.isSome) = false) :
    afterPath t urlText query owner repo st0 = .ok ⟨mkAttrs t owner repo st⟩ := by
  unfold afterPath
  rw [hq]
  simp [hb]

theorem afterPath_filter (t uu : String) (q : List (String × String))
    (ow rp : String) (st0 : QState) :
    afterPath t uu (q.filter (fun p => p.1 == "rev" || p.1 == "ref" || p.1 == "host"))
        ow rp st0
      = afterPath t uu q ow rp st0 := by
  unfold afterPath
  rw [processQuery_filter]

theorem afterPath_append (t uu : String) (q qs : List (String × String))
    (ow rp : String) (st0 st : QState)
    (hq : processQuery uu q st0 = .ok st) :
    afterPath t uu (q ++ qs) ow rp st0 = afterPath t uu qs ow rp st := by
  unfold afterPath
  rw [processQuery_append, hq, okBind_eq]

theorem inputFromURL_success_strong (t : String) (url : ParsedURL) (i : Input)
    (h : inputFromURL t url = .ok (some i)) :
    url.scheme = t ∧
    ∃ ow rp st0 st,
      ((tokenizeString url.path = [ow, rp] ∧ st0 = ⟨none, none, none⟩) ∨
       (∃ seg, tokenizeString url.path = [ow, rp, seg] ∧
         classifySegment url.url seg = .ok (st0.rev, st0.ref) ∧ st0.host = none)) ∧
      processQuery url.url url.query st0 = .ok st ∧
      (st.ref.isSome && st.rev.isSome) = false ∧
      i = ⟨mkAttrs t ow rp st⟩ := by
  unfold inputFromURL at h
  by_cases hs : url.scheme ≠ t
  · simp [hs] at h
  · refine ⟨of_not_not hs, ?_⟩
    simp only [hs, if_false, ite_false, if_neg hs] at h
    cases hl : tokenizeString url.path with
    | nil => rw [hl] at h; simp at h
    | cons a l1 =>
      cases l1 with
      | nil => rw [hl] at h; simp at h
      | cons b l2 =>
        cases l2 with
        | nil =>
          rw [hl] at h
          replace h : Except.map some (afterPath t url.url url.query a b ⟨none, none, none⟩)
              = .ok (some i) := h
          cases ha : afterPath t url.url url.query a b ⟨none, none, none⟩ with
          | error e => rw [ha] at h; simp [Except.map] at h
          | ok i2 =>
            rw [ha] at h
            simp [Except.map] at h
            obtain ⟨st, hq, hb, hi⟩ :=
              afterPath_success t url.url url.query a b ⟨none, none, none⟩ i2 ha
            subst h
            exact ⟨a, b, ⟨none, none, none⟩, st, Or.inl ⟨rfl, rfl⟩, hq, hb, hi⟩
        | cons c l3 =>
          cases l3 with
          | nil =>
            rw [hl] at h
            replace h : (classifySegment url.url c).bind
                (fun p => Except.map some (afterPath t url.url url.query a b ⟨p.1, p.2, none⟩))
                = .ok (some i) := h
            cases hc : classifySegment url.url c with
            | error e => rw [hc] at h; simp [Except.bind] at h
            | ok p =>
              obtain ⟨orev, oref⟩ := p
              rw [hc] at h
              simp only [okBind_eq] at h
              cases ha : afterPath t url.url url.query a b ⟨orev, oref, none⟩ with
              | error e => rw [ha] at h; simp [Except.map] at h
              | ok i2 =>
                rw [ha] at h
                simp [Except.map] at h
                obtain ⟨st, hq, hb, hi⟩ :=
                  afterPath_success t url.url url.query a b ⟨orev, oref, none⟩ i2 ha
                subst h
                exact ⟨a, b, ⟨orev, oref, none⟩, st, Or.inr ⟨c, rfl, hc, rfl⟩, hq, hb, hi⟩
          | cons d l4 => rw [hl] at h; simp at h

/-- Given a successful parse, parsing the same URL with extra query pairs
appended continues the query loop from the reached state. -/
theorem inputFromURL_extend (t us uu up : String) (q qs : List (String × String)) (i : Input)
    (hok : inputFromURL t ⟨us, uu, up, q⟩ = .ok (some i)) :
    ∃ ow rp st, i = ⟨mkAttrs t ow rp st⟩ ∧
      (st.ref.isSome && st.rev.isSome) = false ∧
      inputFromURL t ⟨us, uu, up, q ++ qs⟩ = (afterPath t uu qs ow rp st).map some := by
  obtain ⟨hs, ow, rp, st0, st, hpath, hq, hb, hi⟩ :=
    inputFromURL_success_strong t ⟨us, uu, up, q⟩ i hok
  simp only [ParsedURL_scheme_mk, ParsedURL_url_mk, ParsedURL_path_mk, ParsedURL_query_mk]
    at hs hpath hq
  rcases hpath with ⟨hl, hst0⟩ | ⟨seg, hl, hcs, hhost⟩
  · subst hst0
    refine ⟨ow, rp, st, hi, hb, ?_⟩
    rw [inputFromURL_eq_2 t ⟨us, uu, up, q ++ qs⟩ ow rp hs hl]
    simp only [ParsedURL_url_mk, ParsedURL_query_mk]
    rw [afterPath_append t uu q qs ow rp ⟨none, none, none⟩ st hq]
  · obtain ⟨r0, f0, h0⟩ := st0
    simp only at hhost
    subst hhost
    refine ⟨ow, rp, st, hi, hb, ?_⟩
    rw [inputFromURL_eq_3 t ⟨us, uu, up, q ++ qs⟩ ow rp seg hs hl]
    simp only [ParsedURL_url_mk, ParsedURL_query_mk]
    rw [hcs]
    simp only [okBind_eq]
    rw [afterPath_append t uu q qs ow rp ⟨r0, f0, none⟩ st hq]

theorem processQuery_mem_rev_error (u v : String) (q : List (String × String)) (st0 : QState)
    (h0 : st0.rev.isSome = true) (hin : ("rev", v) ∈ q) :
    ∃ e, processQuery u q st0 = .error e := by
  obtain ⟨q1, q2, hq⟩ := List.append_of_mem hin
  subst hq
  rw [processQuery_append]
  cases hpq : processQuery u q1 st0 with
  | error e => exact ⟨e, rfl⟩
  | ok st1 =>
    have hsome := processQuery_rev_mono u q1 st0 st1 hpq h0
    obtain ⟨x, hx⟩ := Option.isSome_iff_exists.mp hsome
    exact ⟨.badURL s!"URL {u} contains multiple commit hashes",
      by simp [processQuery, hx]⟩

theorem processQuery_mem_ref_error (u v : String) (q : List (String × String)) (st0 : QState)
    (h0 : st0.ref.isSome = true) (hin : ("ref", v) ∈ q) :
    ∃ e, processQuery u q st0 = .error e := by
  obtain ⟨q1, q2, hq⟩ := List.append_of_mem hin
  subst hq
  rw [processQuery_append]
  cases hpq : processQuery u q1 st0 with
  | error e => exact ⟨e, rfl⟩
  | ok st1 =>
    have hsome := processQuery_ref_mono u q1 st0 st1 hpq h0
    obtain ⟨r, hr⟩ := Option.isSome_iff_exists.mp hsome
    cases hrm : refRegexMatch v with
    | false =>
      exact ⟨.badURL s!"URL {u} contains an invalid branch/tag name",
        by simp [processQuery, hrm]⟩
    | true =>
      exact ⟨.badURL s!"URL {u} contains multiple branch/tag names",
        by simp [processQuery, hrm, hr]⟩

/-- C7: URL parsing rejects any path with other than 2 or 3 segments; a
third segment matching the 40-hex revision pattern is always classified as
a rev (never a ref), else as a ref when it matches the ref pattern, else
parsing fails; a rev (resp. ref) supplied in both path and query is an
error; and a successful parse never carries both `ref` and `rev`. -/
theorem inputFromURL_validation :
    (∀ t url, url.scheme = t →
      (tokenizeString url.path).length ≠ 2 → (tokenizeString url.path).length ≠ 3 →
      ∃ e, inputFromURL t url = .error e) ∧
    (∀ u s, isRevString s = true →
      ∃ h : Hash, classifySegment u s = .ok (some h, none) ∧ h.gitRev = s) ∧
    (∀ u s, isRevString s = false → refRegexMatch s = true →
      classifySegment u s = .ok (none, some s)) ∧
    (∀ u s, isRevString s = false → refRegexMatch s = false →
      ∃ e, classifySegment u s = .error e) ∧
    (∀ t url ow rp seg v, url.scheme = t →
      tokenizeString url.path = [ow, rp, seg] → isRevString seg = true →
      ("rev", v) ∈ url.query → ∃ e, inputFromURL t url = .error e) ∧
    (∀ t url ow rp seg v, url.scheme = t →
      tokenizeString url.path = [ow, rp, seg] → isRevString seg = false →
      refRegexMatch seg = true → ("ref", v) ∈ url.query →
      ∃ e, inputFromURL t url = .error e) ∧
    (∀ t url i, inputFromURL t url = .ok (some i) →
      ¬((maybeGetStrAttr i.attrs "ref").isSome = true ∧
        (maybeGetStrAttr i.attrs "rev").isSome = true)) := by
  refine ⟨?_, ?_, ?_, ?_, ?_, ?_, ?_⟩
  · intro t url hs h2 h3
    cases hl : tokenizeString url.path with
    | nil =>
      exact ⟨.badURL s!"URL {url.url} is invalid",
        inputFromURL_eq_other t url hs (by simp [hl]) (by simp [hl])⟩
    | cons a l1 =>
      cases l1 with
      | nil =>
        exact ⟨.badURL s!"URL {url.url} is invalid",
          inputFromURL_eq_other t url hs (by simp [hl]) (by simp [hl])⟩
      | cons b l2 =>
        cases l2 with
        | nil => rw [hl] at h2; simp at h2
        | cons c l3 =>
          cases l3 with
          | nil => rw [hl] at h3; simp at h3
          | cons d l4 =>
            exact ⟨.badURL s!"URL {url.url} is invalid",
              inputFromURL_eq_other t url hs (by simp [hl]) (by simp [hl])⟩
  · intro u s hrev
    refine ⟨⟨s, hrev⟩, ?_, rfl⟩
    unfold classifySegment
    rw [dif_pos hrev]
  · intro u s hrev hrefm
    simp [classifySegment, hrev, hrefm]
  · intro u s hrev hrefm
    exact ⟨.badURL s!"in URL {u}, {s} is not a commit hash or branch/tag name",
      by simp [classifySegment, hrev, hrefm]⟩
  · intro t url ow rp seg v hs hl hrev hin
    have hcs : classifySegment url.url seg = .ok (some ⟨seg, hrev⟩, none) := by
      unfold classifySegment
      rw [dif_pos hrev]
    obtain ⟨e, he⟩ := processQuery_mem_rev_error url.url v url.query
      ⟨some ⟨seg, hrev⟩, none, none⟩ rfl hin
    have ha := afterPath_error t url.url url.query ow rp
      ⟨some ⟨seg, hrev⟩, none, none⟩ e he
    refine ⟨e, ?_⟩
    rw [inputFromURL_eq_3 t url ow rp seg hs hl, hcs]
    simp [ha, Except.map]
  · intro t url ow rp seg v hs hl hrev hrefm hin
    have hcs : classifySegment url.url seg = .ok (none, some seg) := by
      simp [classifySegment, hrev, hrefm]
    obtain ⟨e, he⟩ := processQuery_mem_ref_error url.url v url.query
      ⟨none, some seg, none⟩ rfl hin
    have ha := afterPath_error t url.url url.query ow rp ⟨none, some seg, none⟩ e he
    refine ⟨e, ?_⟩
    rw [inputFromURL_eq_3 t url ow rp seg hs hl, hcs]
    simp [ha, Except.map]
  · intro t url i hok
    rintro ⟨hx, hy⟩
    have hb := inputFromURL_not_both t url i hok
    rw [hx, hy] at hb
    simp at hb

/-- C10: unrecognized query parameters are ignored (parsing depends only on
the `rev`/`ref`/`host` pairs); a repeated `host` query parameter is not
rejected and the last occurrence wins; appending a second `rev` or `ref` to
an otherwise-accepted query is an error. -/
theorem query_parameter_handling :
    (∀ t (us uu up : String) (q : List (String × String)),
      inputFromURL t ⟨us, uu, up, q⟩ =
        inputFromURL t ⟨us, uu, up,
          q.filter (fun p => p.1 == "rev" || p.1 == "ref" || p.1 == "host")⟩) ∧
    (∀ t us uu up q h i, urlRegexMatch h = true →
      inputFromURL t ⟨us, uu, up, q⟩ = .ok (some i) →
      inputFromURL t ⟨us, uu, up, q ++ [("host", h)]⟩ =
        .ok (some ⟨attrInsert i.attrs "host" (.str h)⟩)) ∧
    (∀ t us uu up q v i, inputFromURL t ⟨us, uu, up, q⟩ = .ok (some i) →
      (maybeGetStrAttr i.attrs "rev").isSome = true →
      ∃ e, inputFromURL t ⟨us, uu, up, q ++ [("rev", v)]⟩ = .error e) ∧
    (∀ t us uu up q v i, inputFromURL t ⟨us, uu, up, q⟩ = .ok (some i) →
      (maybeGetStrAttr i.attrs "ref").isSome = true →
      ∃ e, inputFromURL t ⟨us, uu, up, q ++ [("ref", v)]⟩ = .error e) := by
  refine ⟨?_, ?_, ?_, ?_⟩
  · intro t us uu up q
    by_cases hsch : us = t
    · cases hl : tokenizeString up with
      | nil =>
        rw [inputFromURL_eq_other t ⟨us, uu, up, q⟩ hsch (by simp [hl]) (by simp [hl]),
          inputFromURL_eq_other t
            ⟨us, uu, up, q.filter (fun p => p.1 == "rev" || p.1 == "ref" || p.1 == "host")⟩
            hsch (by simp [hl]) (by simp [hl])]
      | cons a l1 =>
        cases l1 with
        | nil =>
          rw [inputFromURL_eq_other t ⟨us, uu, up, q⟩ hsch (by simp [hl]) (by simp [hl]),
            inputFromURL_eq_other t
              ⟨us, uu, up, q.filter (fun p => p.1 == "rev" || p.1 == "ref" || p.1 == "host")⟩
              hsch (by simp [hl]) (by simp [hl])]
        | cons b l2 =>
          cases l2 with
          | nil =>
            rw [inputFromURL_eq_2 t ⟨us, uu, up, q⟩ a b hsch hl,
              inputFromURL_eq_2 t
                ⟨us, uu, up, q.filter (fun p => p.1 == "rev" || p.1 == "ref" || p.1 == "host")⟩
                a b hsch hl]
            simp only [ParsedURL_url_mk, ParsedURL_query_mk]
            rw [afterPath_filter]
          | cons c l3 =>
            cases l3 with
            | nil =>
              rw [inputFromURL_eq_3 t ⟨us, uu, up, q⟩ a b c hsch hl,
                inputFromURL_eq_3 t
                  ⟨us, uu, up,
                    q.filter (fun p => p.1 == "rev" || p.1 == "ref" || p.1 == "host")⟩
                  a b c hsch hl]
              simp only [ParsedURL_url_mk, ParsedURL_query_mk, afterPath_filter]
            | cons d l4 =>
              rw [inputFromURL_eq_other t ⟨us, uu, up, q⟩ hsch
                  (by simp [hl]) (by simp [hl]),
                inputFromURL_eq_other t
                  ⟨us, uu, up,
                    q.filter (fun p => p.1 == "rev" || p.1 == "ref" || p.1 == "host")⟩
                  hsch (by simp [hl]) (by simp [hl])]
    · rw [inputFromURL_eq_noscheme t ⟨us, uu, up, q⟩ hsch,
        inputFromURL_eq_noscheme t
          ⟨us, uu, up, q.filter (fun p => p.1 == "rev" || p.1 == "ref" || p.1 == "host")⟩
          hsch]
  · intro t us uu up q h i hv hok
    obtain ⟨ow, rp, st, hi, hb, heq⟩ := inputFromURL_extend t us uu up q [("host", h)] i hok
    have hb2 : (({st with host := some h}).ref.isSome &&
        ({st with host := some h}).rev.isSome) = false := by simpa using hb
    rw [heq, afterPath_eq_ok t uu [("host", h)] ow rp st { st with host := some h }
      (processQuery_single_host uu h st hv) hb2]
    rw [hi]
    simp [Except.map, mkAttrs_host_update]
  · intro t us uu up q v i hok hrev
    obtain ⟨ow, rp, st, hi, hb, heq⟩ := inputFromURL_extend t us uu up q [("rev", v)] i hok
    subst hi
    rw [mkAttrs_rev] at hrev
    have hx : st.rev.isSome = true := by
      cases hsr : st.rev
      · rw [hsr] at hrev; simp at hrev
      · rfl
    obtain ⟨x, hx2⟩ := Option.isSome_iff_exists.mp hx
    obtain ⟨e, he⟩ := processQuery_single_rev_dup uu v st x hx2
    exact ⟨e, by rw [heq, afterPath_error t uu [("rev", v)] ow rp st e he]; simp [Except.map]⟩
  · intro t us uu up q v i hok href
    obtain ⟨ow, rp, st, hi, hb, heq⟩ := inputFromURL_extend t us uu up q [("ref", v)] i hok
    subst hi
    rw [mkAttrs_ref] at href
    obtain ⟨r, hr⟩ := Option.isSome_iff_exists.mp href
    obtain ⟨e, he⟩ := processQuery_single_ref_dup uu v st r hr
    exact ⟨e, by rw [heq, afterPath_error t uu [("ref", v)] ow rp st e he]; simp [Except.map]⟩

/-- A parsed URL whose path has a single segment. -/
def badLenURL : ParsedURL := ⟨"github", "github:a", "a", []⟩

theorem inputFromURL_validation_witness :
    (∃ e, inputFromURL "github" badLenURL = .error e) ∧
    (∃ h : Hash, classifySegment "u" sampleRevStr = .ok (some h, none) ∧
      h.gitRev = sampleRevStr) ∧
    classifySegment "u" "main" = .ok (none, some "main") ∧
    (∃ e, classifySegment "u" "!!" = .error e) :=
  ⟨inputFromURL_validation.1 "github" badLenURL rfl (by decide) (by decide),
   inputFromURL_validation.2.1 "u" sampleRevStr sampleRevStr_isRev,
   inputFromURL_validation.2.2.1 "u" "main" (by decide) (by decide),
   inputFromURL_validation.2.2.2.1 "u" "!!" (by decide) (by decide)⟩

/-- The input parsed from `github:a/b?host=example.com`. -/
def hostInput1 : Input :=
  ⟨[("type", .str "github"), ("owner", .str "a"), ("repo", .str "b"),
    ("host", .str "example.com")]⟩

theorem query_parameter_handling_witness :
    inputFromURL "github" ⟨"github", "github:a/b", "a/b",
        [("host", "example.com"), ("host", "example.org")]⟩ =
      .ok (some ⟨attrInsert hostInput1.attrs "host" (.str "example.org")⟩) :=
  query_parameter_handling.2.1 "github" "github" "github:a/b" "a/b"
    [("host", "example.com")] "example.org" hostInput1 (by decide) (by rfl)

theorem isAlphanum_ne_slash (c : Char) (h : c.isAlphanum = true) : c ≠ '/' := by
  intro hc
  subst hc
  exact absurd h (by decide)

theorem isLowerHexDigit_ne_slash (c : Char) (h : isLowerHexDigit c = true) : c ≠ '/' := by
  intro hc
  subst hc
  exact absurd h (by decide)

theorem refMatch_token (r : String) (h : refRegexMatch r = true) :
    r.data ≠ [] ∧ ∀ c ∈ r.data, c ≠ '/' := by
  unfold refRegexMatch at h
  cases hd : r.data with
  | nil => rw [hd] at h; simp at h
  | cons c rest =>
    rw [hd] at h
    simp only [Bool.and_eq_true] at h
    obtain ⟨h1, h2⟩ := h
    refine ⟨by simp, ?_⟩
    intro d hdm
    rcases List.mem_cons.mp hdm with hdm | hdm
    · subst hdm; exact isAlphanum_ne_slash d h1
    · have := (List.all_eq_true.mp h2) d hdm
      simp only [Bool.or_eq_true] at this
      rcases this with ((ha | ha) | ha) | ha
      · exact isAlphanum_ne_slash d ha
      · intro hc; rw [of_decide_eq_true ha] at hc; cases hc
      · intro hc; rw [of_decide_eq_true ha] at hc; cases hc
      · intro hc; rw [of_decide_eq_true ha] at hc; cases hc

theorem revString_token (s : String) (h : isRevString s = true) :
    s.data ≠ [] ∧ ∀ c ∈ s.data, c ≠ '/' := by
  unfold isRevString at h
  simp only [Bool.and_eq_true, beq_iff_eq] at h
  obtain ⟨h1, h2⟩ := h
  constructor
  · intro hd
    have : s.length = 0 := by simp [String.length, hd]
    rw [h1] at this
    cases this
  · intro c hc
    exact isLowerHexDigit_ne_slash c ((List.all_eq_true.mp h2) c hc)

theorem splitSlashAux_no_slash (l : List Char) :
    ∀ acc, (∀ c ∈ l, c ≠ '/') → splitSlashAux l acc = [acc.reverse ++ l] := by
  induction l with
  | nil => intro acc h; simp [splitSlashAux]
  | cons c cs ih =>
    intro acc h
    have hc : ¬ c = '/' := h c (by simp)
    rw [show splitSlashAux (c :: cs) acc = splitSlashAux cs (c :: acc) from by
      simp [splitSlashAux, hc]]
    rw [ih (c :: acc) (fun d hd => h d (List.mem_cons_of_mem c hd))]
    simp

theorem splitSlashAux_split (s1 : List Char) :
    ∀ (rest acc : List Char), (∀ c ∈ s1, c ≠ '/') →
      splitSlashAux (s1 ++ '/' :: rest) acc
        = (acc.reverse ++ s1) :: splitSlashAux rest [] := by
  induction s1 with
  | nil =>
    intro rest acc h
    simp [splitSlashAux]
  | cons c cs ih =>
    intro rest acc h
    have hc : ¬ c = '/' := h c (by simp)
    simp only [List.cons_append]
    rw [show splitSlashAux (c :: (cs ++ '/' :: rest)) acc
        = splitSlashAux (cs ++ '/' :: rest) (c :: acc) from by simp [splitSlashAux, hc]]
    rw [ih rest (c :: acc) (fun d hd => h d (List.mem_cons_of_mem c hd))]
    simp

theorem ne_nil_isEmpty_false {α : Type} (l : List α) (h : l ≠ []) : l.isEmpty = false := by
  cases l with
  | nil => exact absurd rfl h
  | cons a l2 => rfl

theorem stringMk_data (s : String) : String.mk s.data = s := rfl

theorem tokenizeString_append_two (ow rp : String)
    (h1 : ow.data ≠ []) (h2 : ∀ c ∈ ow.data, c ≠ '/')
    (h3 : rp.data ≠ []) (h4 : ∀ c ∈ rp.data, c ≠ '/') :
    tokenizeString (ow ++ "/" ++ rp) = [ow, rp] := by
  unfold tokenizeString
  have hdata : (ow ++ "/" ++ rp).data = ow.data ++ '/' :: rp.data := by
    simp [String.data_append]
  rw [hdata, splitSlashAux_split ow.data rp.data [] h2,
    splitSlashAux_no_slash rp.data [] h4]
  simp [List.filter, ne_nil_isEmpty_false _ h1, ne_nil_isEmpty_false _ h3, stringMk_data]

theorem tokenizeString_append_three (ow rp x : String)
    (h1 : ow.data ≠ []) (h2 : ∀ c ∈ ow.data, c ≠ '/')
    (h3 : rp.data ≠ []) (h4 : ∀ c ∈ rp.data, c ≠ '/')
    (h5 : x.data ≠ []) (h6 : ∀ c ∈ x.data, c ≠ '/') :
    tokenizeString (ow ++ "/" ++ rp ++ "/" ++ x) = [ow, rp, x] := by
  unfold tokenizeString
  have hdata : (ow ++ "/" ++ rp ++ "/" ++ x).data
      = ow.data ++ '/' :: (rp.data ++ '/' :: x.data) := by
    simp [String.data_append]
  rw [hdata, splitSlashAux_split ow.data (rp.data ++ '/' :: x.data) [] h2,
    splitSlashAux_split rp.data x.data [] h4,
    splitSlashAux_no_slash x.data [] h6]
  simp [List.filter, ne_nil_isEmpty_false _ h1, ne_nil_isEmpty_false _ h3,
    ne_nil_isEmpty_false _ h5, stringMk_data]

theorem splitSlashAux_mem_no_slash (l : List Char) :
    ∀ (acc tokl : List Char), (∀ c ∈ acc, c ≠ '/') → tokl ∈ splitSlashAux l acc →
      ∀ c ∈ tokl, c ≠ '/' := by
  induction l with
  | nil =>
    intro acc tokl hacc hm
    simp [splitSlashAux] at hm
    subst hm
    intro c hc
    exact hacc c (by simpa using hc)
  | cons c0 cs ih =>
    intro acc tokl hacc hm
    by_cases hc0 : c0 = '/'
    · subst hc0
      simp [splitSlashAux] at hm
      rcases hm with hm | hm
      · subst hm
        intro c hc
        exact hacc c (by simpa using hc)
      · exact ih [] tokl (by simp) hm
    · rw [show splitSlashAux (c0 :: cs) acc = splitSlashAux cs (c0 :: acc) from by
        simp [splitSlashAux, hc0]] at hm
      refine ih (c0 :: acc) tokl ?_ hm
      intro d hd
      rcases List.mem_cons.mp hd with hd | hd
      · subst hd; exact hc0
      · exact hacc d hd

theorem tokenizeString_mem (s tok : String) (h : tok ∈ tokenizeString s) :
    tok.data ≠ [] ∧ ∀ c ∈ tok.data, c ≠ '/' := by
  unfold tokenizeString at h
  obtain ⟨l, hl, hmk⟩ := List.mem_map.mp h
  obtain ⟨hmem, hne⟩ := List.mem_filter.mp hl
  subst hmk
  constructor
  · intro hcon
    cases hcl : l with
    | nil => rw [hcl] at hne; simp at hne
    | cons a l2 => rw [hcl] at hcon; cases hcon
  · intro c hc
    exact splitSlashAux_mem_no_slash s.data [] l (by simp) hmem c hc

theorem classifySegment_ok (u s : String) (orev : Option Hash) (oref : Option String)
    (h : classifySegment u s = .ok (orev, oref)) :
    (∃ hh : Hash, orev = some hh ∧ oref = none ∧ hh.gitRev = s) ∨
    (orev = none ∧ oref = some s ∧ refRegexMatch s = true ∧ isRevString s = false) := by
  unfold classifySegment at h
  split at h
  · simp only [Except.ok.injEq, Prod.mk.injEq] at h
    exact Or.inl ⟨⟨s, by assumption⟩, h.1.symm, h.2.symm, rfl⟩
  · split at h
    · simp only [Except.ok.injEq, Prod.mk.injEq] at h
      rename_i hrev hrm
      refine Or.inr ⟨h.1.symm, h.2.symm, hrm, ?_⟩
      cases hx : isRevString s with
      | false => rfl
      | true => exact absurd hx hrev
    · simp at h

theorem processQuery_ref_valid (u : String) :
    ∀ (q : List (String × String)) (st st2 : QState),
      processQuery u q st = .ok st2 →
      (∀ r, st.ref = some r → refRegexMatch r = true) →
      (∀ r, st2.ref = some r → refRegexMatch r = true) := by
  intro q
  induction q with
  | nil =>
    intro st st2 h hv
    replace h : (Except.ok st : Except Err QState) = .ok st2 := h
    cases Except.ok.inj h
    exact hv
  | cons p rest ih =>
    intro st st2 h hv
    obtain ⟨n, w⟩ := p
    by_cases h1 : n = "rev"
    · subst h1
      cases hr : st.rev with
      | some x => simp [processQuery, hr] at h
      | none =>
        cases hp : Hash.parseAny w with
        | error e => simp [processQuery, hr, hp] at h
        | ok hsh =>
          simp [processQuery, hr, hp] at h
          exact ih _ _ h (by simpa using hv)
    · by_cases h2 : n = "ref"
      · subst h2
        cases hrm : refRegexMatch w with
        | false => simp [processQuery, hrm] at h
        | true =>
          cases hsr : st.ref with
          | some r => simp [processQuery, hrm, hsr] at h
          | none =>
            simp [processQuery, hrm, hsr] at h
            refine ih _ _ h ?_
            intro r hr
            simp at hr
            rw [← hr]
            exact hrm
      · by_cases h3 : n = "host"
        · subst h3
          cases hu : urlRegexMatch w with
          | false => simp [processQuery, hu] at h
          | true =>
            simp [processQuery, hu] at h
            exact ih _ _ h (by simpa using hv)
        · simp [processQuery, h1, h2, h3] at h
          exact ih _ _ h hv

@[simp] theorem Input_attrs_mk (a : Attrs) : (Input.mk a).attrs = a := rfl

theorem hash_eta (v : Hash) (p : isRevString v.gitRev = true) :
    (⟨v.gitRev, p⟩ : Hash) = v := by
  cases v
  rfl

/-- The input parsed from `github:a/b?ref=<40 hex chars>`. -/
def refHexInput : Input :=
  ⟨[("type", .str "github"), ("owner", .str "a"), ("repo", .str "b"),
    ("ref", .str sampleRevStr)]⟩

/-- A URL supplying a 40-hex branch name through the `ref` query parameter. -/
def refHexURL : ParsedURL :=
  ⟨"github", "github:a/b?ref=hex", "a/b", [("ref", sampleRevStr)]⟩

/-- The URL `toURL` renders for `refHexInput`. -/
def renderedHexURL : ParsedURL :=
  ⟨"github", "", "a/b/aaaaaaaaaaaaaaaaaaaaaaaaaaaaaaaaaaaaaaaa", []⟩

/-- What the rendered URL re-parses to: a rev, not a ref. -/
def revHexInput : Input :=
  ⟨[("type", .str "github"), ("owner", .str "a"), ("repo", .str "b"),
    ("rev", .str sampleRevStr)]⟩

/-- C9 counterexample: a branch name that happens to be 40 lowercase hex
characters, supplied via the `ref` query parameter, parses as a `ref`, but
the URL rendered from the parsed input re-parses as a `rev` — the round
trip does not preserve which of ref/rev was supplied. -/
theorem render_parse_flips_hex_ref :
    inputFromURL "github" refHexURL = .ok (some refHexInput) ∧
    maybeGetStrAttr refHexInput.attrs "ref" = some sampleRevStr ∧
    maybeGetStrAttr refHexInput.attrs "rev" = none ∧
    toURL "github" refHexInput = .ok renderedHexURL ∧
    inputFromURL "github" renderedHexURL = .ok (some revHexInput) ∧
    maybeGetStrAttr revHexInput.attrs "ref" = none ∧
    maybeGetStrAttr revHexInput.attrs "rev" = some sampleRevStr := by
  refine ⟨by rfl, by rfl, by rfl, by rfl, by rfl, by rfl, by rfl⟩

/-- C9 (amended): for every URL that parses successfully and supplies a ref
or a rev, if the supplied ref (when one is present) does not itself match
the 40-hex revision pattern, then rendering the parsed input yields a
canonical URL with the same scheme that re-parses to an input with the same
owner, repo, ref and rev. -/
theorem render_parse_roundtrip (t : String) (url : ParsedURL) (i : Input)
    (hok : inputFromURL t url = .ok (some i))
    (hsupplied : (maybeGetStrAttr i.attrs "ref").isSome = true ∨
      (maybeGetStrAttr i.attrs "rev").isSome = true)
    (hnothex : ∀ r, maybeGetStrAttr i.attrs "ref" = some r → isRevString r = false) :
    ∃ u2, toURL t i = .ok u2 ∧ u2.scheme = url.scheme ∧
      ∃ i2, inputFromURL t u2 = .ok (some i2) ∧
        maybeGetStrAttr i2.attrs "owner" = maybeGetStrAttr i.attrs "owner" ∧
        maybeGetStrAttr i2.attrs "repo" = maybeGetStrAttr i.attrs "repo" ∧
        maybeGetStrAttr i2.attrs "ref" = maybeGetStrAttr i.attrs "ref" ∧
        maybeGetStrAttr i2.attrs "rev" = maybeGetStrAttr i.attrs "rev" := by
  obtain ⟨hs, ow, rp, st0, st, hpath, hq, hb, hi⟩ := inputFromURL_success_strong t url i hok
  subst hi
  have how : ow.data ≠ [] ∧ ∀ c ∈ ow.data, c ≠ '/' := by
    rcases hpath with ⟨hl, -⟩ | ⟨seg, hl, -, -⟩ <;>
      exact tokenizeString_mem url.path ow (by simp [hl])
  have hrp : rp.data ≠ [] ∧ ∀ c ∈ rp.data, c ≠ '/' := by
    rcases hpath with ⟨hl, -⟩ | ⟨seg, hl, -, -⟩ <;>
      exact tokenizeString_mem url.path rp (by simp [hl])
  have hrefval : ∀ r, st.ref = some r → refRegexMatch r = true := by
    refine processQuery_ref_valid url.url url.query st0 st hq ?_
    rcases hpath with ⟨-, hst0⟩ | ⟨seg, -, hcs, -⟩
    · subst hst0
      intro r hr
      simp at hr
    · intro r hr
      rcases classifySegment_ok url.url seg st0.rev st0.ref hcs with
        ⟨hh, -, hnone, -⟩ | ⟨-, hsome, hrm, -⟩
      · rw [hnone] at hr
        simp at hr
      · rw [hsome] at hr
        cases Option.some.inj hr
        exact hrm
  cases hsr : st.ref with
  | some r =>
    cases hsv : st.rev with
    | some v => rw [hsr, hsv] at hb; simp at hb
    | none =>
      have hrm : refRegexMatch r = true := hrefval r hsr
      have hrtok := refMatch_token r hrm
      have hrnothex : isRevString r = false := by
        refine hnothex r ?_
        simp [mkAttrs_ref, hsr]
      refine ⟨⟨t, "", ow ++ "/" ++ rp ++ "/" ++ r, []⟩, ?_, by simp [hs], ?_⟩
      · simp [toURL, getStrAttr, mkAttrs_owner, mkAttrs_repo, Input.getRef,
          mkAttrs_ref, mkAttrs_getRev, hsr, hsv]
      · have hl2 : tokenizeString (ow ++ "/" ++ rp ++ "/" ++ r) = [ow, rp, r] :=
          tokenizeString_append_three ow rp r how.1 how.2 hrp.1 hrp.2 hrtok.1 hrtok.2
        have hcs2 : classifySegment "" r = .ok (none, some r) := by
          simp [classifySegment, hrnothex, hrm]
        refine ⟨⟨mkAttrs t ow rp ⟨none, some r, none⟩⟩, ?_, ?_, ?_, ?_, ?_⟩
        · rw [inputFromURL_eq_3 t ⟨t, "", ow ++ "/" ++ rp ++ "/" ++ r, []⟩ ow rp r rfl
            (by simpa using hl2)]
          simp only [ParsedURL_url_mk, ParsedURL_query_mk]
          rw [hcs2]
          simp only [okBind_eq]
          rw [afterPath_eq_ok t "" [] ow rp ⟨none, some r, none⟩ ⟨none, some r, none⟩ rfl
            (by simp)]
          simp [Except.map]
        · simp [mkAttrs_owner]
        · simp [mkAttrs_repo]
        · simp [mkAttrs_ref, hsr]
        · simp [mkAttrs_rev, hsv]
  | none =>
    cases hsv : st.rev with
    | none =>
      rw [Input_attrs_mk, mkAttrs_ref, mkAttrs_rev, hsr, hsv] at hsupplied
      simp at hsupplied
    | some v =>
      have hvtok := revString_token v.gitRev v.isRev
      refine ⟨⟨t, "", ow ++ "/" ++ rp ++ "/" ++ v.gitRev, []⟩, ?_, by simp [hs], ?_⟩
      · simp [toURL, getStrAttr, mkAttrs_owner, mkAttrs_repo, Input.getRef,
          mkAttrs_ref, mkAttrs_getRev, hsr, hsv]
      · have hl2 : tokenizeString (ow ++ "/" ++ rp ++ "/" ++ v.gitRev)
            = [ow, rp, v.gitRev] :=
          tokenizeString_append_three ow rp v.gitRev how.1 how.2 hrp.1 hrp.2
            hvtok.1 hvtok.2
        have hcs2 : classifySegment "" v.gitRev = .ok (some v, none) := by
          unfold classifySegment
          rw [dif_pos v.isRev]
        refine ⟨⟨mkAttrs t ow rp ⟨some v, none, none⟩⟩, ?_, ?_, ?_, ?_, ?_⟩
        · rw [inputFromURL_eq_3 t ⟨t, "", ow ++ "/" ++ rp ++ "/" ++ v.gitRev, []⟩
            ow rp v.gitRev rfl (by simpa using hl2)]
          simp only [ParsedURL_url_mk, ParsedURL_query_mk]
          rw [hcs2]
          simp only [okBind_eq]
          rw [afterPath_eq_ok t "" [] ow rp ⟨some v, none, none⟩ ⟨some v, none, none⟩ rfl
            (by simp)]
          simp [Except.map]
        · simp [mkAttrs_owner]
        · simp [mkAttrs_repo]
        · simp [mkAttrs_ref, hsr]
        · simp [mkAttrs_rev, hsv]

/-- The input parsed from `github:a/b/main`. -/
def refMainInput : Input :=
  ⟨[("type", .str "github"), ("owner", .str "a"), ("repo", .str "b"),
    ("ref", .str "main")]⟩

/-- The URL `github:a/b/main`. -/
def mainURL : ParsedURL := ⟨"github", "github:a/b/main", "a/b/main", []⟩

theorem render_parse_roundtrip_witness :
    ∃ u2, toURL "github" refMainInput = .ok u2 ∧ u2.scheme = mainURL.scheme ∧
      ∃ i2, inputFromURL "github" u2 = .ok (some i2) ∧
        maybeGetStrAttr i2.attrs "owner" = maybeGetStrAttr refMainInput.attrs "owner" ∧
        maybeGetStrAttr i2.attrs "repo" = maybeGetStrAttr refMainInput.attrs "repo" ∧
        maybeGetStrAttr i2.attrs "ref" = maybeGetStrAttr refMainInput.attrs "ref" ∧
        maybeGetStrAttr i2.attrs "rev" = maybeGetStrAttr refMainInput.attrs "rev" :=
  render_parse_roundtrip "github" mainURL refMainInput (by rfl) (Or.inl (by rfl))
    (fun r hr => by
      rw [show maybeGetStrAttr refMainInput.attrs "ref" = some "main" from rfl] at hr
      cases Option.some.inj hr
      decide)

end GitArchive
